import Mathlib

/-!
Verification of the DSP disconnected-synchronization engine core
(snapshot engine, diff/bundle engine, bundle archive, export/import
transport) against its specification.

The Go source is shallowly embedded: pure functions become Lean
functions, fallible operations return `Except`, Go maps become
association lists with Go's insert-or-replace semantics, and the
stateful export server becomes an explicit state machine driven by a
linearized event trace (the Go server guards all of this state with a
single mutex, so linearization is faithful).

Cryptographic digests and zstd compression are modeled as injective
encodings of their inputs: the properties checked here depend only on
WHICH bytes are digested/compressed, never on numerical properties of
the real functions.
-/

namespace DSP

/-- Byte strings are modeled as lists of naturals. -/
abbrev Bytes := List Nat

/-- The bytes of a string (used where Go hashes or measures a string). -/
def strBytes (s : String) : Bytes := s.data.map Char.toNat

/-- Model of `utils.HashBytes` (compression.go): SHA-256 of the data,
hex-encoded.  Modeled as an injective encoding of the input bytes. -/
def HashBytes (data : Bytes) : String := "sha256:" ++ toString data

/-- Hash-algorithm errors from `utils.GetHasher` (part_000). -/
inductive HashErr where
  | unsupportedAlgorithm
  deriving Repr, DecidableEq

/-- Model of the digest produced by `utils.GetHasher`-based hashing
(part_000): the supported algorithms are exactly blake3, sha256 and
sha512; the digest is modeled as an injective encoding of the
algorithm name and the input bytes. -/
def digestHex (algorithm : String) (data : Bytes) : Except HashErr String :=
  if algorithm = "blake3" ∨ algorithm = "sha256" ∨ algorithm = "sha512" then
    .ok (algorithm ++ ":" ++ toString data)
  else
    .error .unsupportedAlgorithm

/-- Model of `utils.Compress` (compression.go): zstd at a given level.
zstd is lossless, so the model is an injective encoding of the input;
the level is recorded in the frame header. -/
def Compress (level : Int) (data : Bytes) : Bytes :=
  level.toNat :: data

/-! ## Glob matching: model of Go `path/filepath.Match` (unix separator)

`processPath` (snapshot.go) tests each walked entry's path relative to
the tracked root against every exclude pattern with `filepath.Match`:
`*` matches any sequence of non-separator characters, `?` any single
non-separator character, `[^...]` character classes with ranges, and
backslash escapes.  `none` models `ErrBadPattern`.  (Go reports bad
patterns lazily; the exact error/`false` boundary for malformed
patterns is immaterial here since no claim exercises one.) -/

/-- Model of `getEsc` in Go `path/filepath/match.go`: read one
(possibly backslash-escaped) character-class endpoint. -/
def getEsc : List Char → Option (Char × List Char)
  | [] => none
  | c :: rest =>
    if c = '-' ∨ c = ']' then none
    else if c = '\\' then
      match rest with
      | [] => none
      | c' :: rest' => if rest' = [] then none else some (c', rest')
    else if rest = [] then none else some (c, rest)

/-- The character-class loop of `matchChunk` in Go
`path/filepath/match.go`: `chunk` is the pattern after `[` (and after
the optional `^`), `r` the name character being tested, `matched`
whether some range already matched, `seen` whether at least one range
has been read (Go's `nrange > 0`).  Returns whether the class matched
and the pattern rest after the closing `]`. -/
def classMatch (r : Char) (chunk : List Char) (matched seen : Bool) :
    Option (Bool × List Char) :=
  match chunk with
  | [] => none
  | c :: rest =>
    if c = ']' then
      -- Go breaks the loop on `]` only after at least one range;
      -- a leading `]` falls into `getEsc`, which rejects it
      if seen then some (matched, rest) else none
    else
      match hlo : getEsc (c :: rest) with
      | none => none
      | some (lo, rest1) =>
        match rest1 with
        | [] => none -- unreachable: `getEsc` never returns an empty rest
        | d :: rest2 =>
          if d = '-' then
            match hhi : getEsc rest2 with
            | none => none
            | some (hi, rest3) =>
              classMatch r rest3 (matched || decide (lo ≤ r ∧ r ≤ hi)) true
          else
            classMatch r (d :: rest2) (matched || decide (lo = r)) true
termination_by chunk.length
decreasing_by
  all_goals
    have hgel : ∀ (cs : List Char) (c' : Char) (r' : List Char),
        getEsc cs = some (c', r') → r'.length < cs.length := by
      intro cs c' r' h
      cases cs with
      | nil => simp [getEsc] at h
      | cons c0 cs0 =>
        simp only [getEsc] at h
        split at h
        · exact absurd h (by simp)
        · split at h
          · cases cs0 with
            | nil => simp at h
            | cons c1 cs1 =>
              simp only at h
              split at h
              · exact absurd h (by simp)
              · simp only [Option.some.injEq, Prod.mk.injEq] at h
                simp only [← h.2, List.length_cons]
                omega
          · split at h
            · exact absurd h (by simp)
            · simp only [Option.some.injEq, Prod.mk.injEq] at h
              simp only [← h.2, List.length_cons]
              omega
  · have h1 := hgel _ _ _ hlo
    have h2 := hgel _ _ _ hhi
    simp only [List.length_cons] at h1 ⊢
    omega
  · have h1 := hgel _ _ _ hlo
    simp only [List.length_cons] at h1 ⊢
    omega

/-- The `[`-chunk of `matchChunk`: strip the optional `^`, run the class
loop, and apply the negation (Go fails the chunk when
`match == negated`). -/
def classChunk (r : Char) (p : List Char) : Option (Bool × List Char) :=
  match p with
  | [] => classMatch r [] false false
  | c :: p1 =>
    if c = '^' then (classMatch r p1 false false).map (fun mr => (!mr.1, mr.2))
    else classMatch r (c :: p1) false false

/-- Model of Go `path/filepath.Match` on character lists. -/
def goMatchL : List Char → List Char → Option Bool
  | [], n => if n.isEmpty then some true else some false
  | c :: p, n =>
    if c = '*' then
      -- `*` matches any (possibly empty) sequence of non-separator chars
      match goMatchL p n with
      | none => none
      | some true => some true
      | some false =>
        match n with
        | [] => some false
        | d :: n' => if d = '/' then some false else goMatchL (c :: p) n'
    else if c = '?' then
      match n with
      | [] => some false
      | d :: n' => if d = '/' then some false else goMatchL p n'
    else if c = '[' then
      match n with
      | [] => some false
      | d :: n' =>
        match hcm : classChunk d p with
        | none => none
        | some (matched, rest) =>
          if matched then goMatchL rest n' else some false
    else if c = '\\' then
      match p with
      | [] => none
      | e :: p' =>
        match n with
        | [] => some false
        | d :: n' => if e = d then goMatchL p' n' else some false
    else
      match n with
      | [] => some false
      | d :: n' => if c = d then goMatchL p n' else some false
termination_by p n => p.length + n.length
decreasing_by
  · simp_arith
  · simp_arith
  · simp_arith
  · have hgel : ∀ (cs : List Char) (c' : Char) (r' : List Char),
        getEsc cs = some (c', r') → r'.length < cs.length := by
      intro cs c' r' h
      cases cs with
      | nil => simp [getEsc] at h
      | cons c0 cs0 =>
        simp only [getEsc] at h
        split at h
        · exact absurd h (by simp)
        · split at h
          · cases cs0 with
            | nil => simp at h
            | cons c1 cs1 =>
              simp only at h
              split at h
              · exact absurd h (by simp)
              · simp only [Option.some.injEq, Prod.mk.injEq] at h
                simp only [← h.2, List.length_cons]
                omega
          · split at h
            · exact absurd h (by simp)
            · simp only [Option.some.injEq, Prod.mk.injEq] at h
              simp only [← h.2, List.length_cons]
              omega
    have hfuel : ∀ (k : Nat) (chunk : List Char), chunk.length ≤ k →
        ∀ (r : Char) (m s b : Bool) (rest : List Char),
        classMatch r chunk m s = some (b, rest) → rest.length < chunk.length := by
      intro k
      induction k with
      | zero =>
        intro chunk hle r m s b rest h
        cases chunk with
        | nil => rw [classMatch] at h; exact absurd h (by simp)
        | cons c cs =>
          rw [classMatch] at h
          simp at hle
      | succ k ih =>
        intro chunk hle r m s b rest h
        cases chunk with
        | nil => rw [classMatch] at h; exact absurd h (by simp)
        | cons c cs =>
          rw [classMatch] at h
          split at h
          · split at h
            · simp only [Option.some.injEq, Prod.mk.injEq] at h
              simp only [← h.2, List.length_cons]
              omega
            · exact absurd h (by simp)
          · split at h
            · exact absurd h (by simp)
            · rename_i lo rest1 hlo
              have h1 := hgel _ _ _ hlo
              split at h
              · exact absurd h (by simp)
              · rename_i d' rest2
                split at h
                · split at h
                  · exact absurd h (by simp)
                  · rename_i hi rest3 hhi
                    have h2 := hgel _ _ _ hhi
                    have h3 : rest3.length ≤ k := by
                      simp only [List.length_cons] at h1 hle ⊢
                      omega
                    have := ih rest3 h3 _ _ _ _ _ h
                    simp only [List.length_cons] at h1 ⊢
                    omega
                · have h3 : (d' :: rest2).length ≤ k := by
                    simp only [List.length_cons] at h1 hle ⊢
                    omega
                  have := ih (d' :: rest2) h3 _ _ _ _ _ h
                  simp only [List.length_cons] at h1 this ⊢
                  omega
    have hccl : rest.length < p.length := by
      cases p with
      | nil =>
        rw [classChunk, classMatch] at hcm
        exact absurd hcm (by simp)
      | cons c' p1 =>
        rw [classChunk] at hcm
        split at hcm
        · rw [Option.map_eq_some'] at hcm
          obtain ⟨⟨mb, mrest⟩, hmm, hfa⟩ := hcm
          have := hfuel p1.length p1 le_rfl _ _ _ _ _ hmm
          have hr : rest = mrest := by
            have := congrArg Prod.snd hfa
            simpa using this.symm
          rw [hr]
          simp only [List.length_cons]
          omega
        · have := hfuel (c' :: p1).length (c' :: p1) le_rfl _ _ _ _ _ hcm
          omega
    simp_arith
    omega
  · simp_arith
  · simp_arith

/-- Model of `filepath.Match pattern name`. -/
def goMatch (pattern name : String) : Option Bool :=
  goMatchL pattern.data name.data

/-! ## Filesystem model and the snapshot engine (snapshot.go)

A directory tree is modeled as a rose tree whose directory entries are
listed in the order `filepath.Walk` visits them (Go sorts the names; no
claim depends on the order).  `ioErr` stands for an entry on which
`lstat`/`open` fails with an error other than not-exist.

Model restrictions (documented, not exercised by any claim): symlink
targets are resolved as `/`-separated paths relative to the directory
containing the link (no `..`, no absolute targets), and a tracked root
that is itself a symlink is out of scope. -/

/-- A node of the modeled filesystem. -/
inductive FNode where
  | file (content : Bytes) (mtime : Nat)
  | symlink (target : String) (mtime : Nat)
  | dir (entries : List (String × FNode))
  | ioErr

/-- Directory lookup by entry name (names in a real directory are unique). -/
def lookupEntry : List (String × FNode) → String → Option FNode
  | [], _ => none
  | (n, node) :: rest, name => if n = name then some node else lookupEntry rest name

/-- Split a character list at `/` separators. -/
def splitPathAux : List Char → List Char → List String
  | [], acc => [String.mk acc.reverse]
  | c :: cs, acc =>
    if c = '/' then String.mk acc.reverse :: splitPathAux cs []
    else splitPathAux cs (c :: acc)

/-- Split a path into components (`strings.Split` at `/`). -/
def splitPath (s : String) : List String := splitPathAux s.data []

/-- Resolve a relative path inside a directory node, following symlinks
with bounded fuel (the kernel's ELOOP bound).  Models the resolution
performed by `os.Open`. -/
def resolveNode (fuel : Nat) (base : FNode) (comps : List String) : Option FNode :=
  match fuel with
  | 0 => none
  | fuel + 1 =>
    match comps with
    | [] => some base
    | c :: cs =>
      match base with
      | .dir entries =>
        match lookupEntry entries c with
        | none => none
        | some child =>
          match child with
          | .symlink t _ => resolveNode fuel base (splitPath t ++ cs)
          | _ => if cs.isEmpty then some child else resolveNode fuel child cs
      | _ => none

/-- Model of `os.Open` + full read of entry `name` of the directory
whose complete listing is `dirAll`: the open FOLLOWS symlinks, so for a
symlink entry this returns the bytes of the file the link resolves to;
opening a directory or a broken link fails. -/
def openRead (dirAll : List (String × FNode)) (name : String) : Option Bytes :=
  match resolveNode 40 (.dir dirAll) [name] with
  | some (.file c _) => some c
  | _ => none

/-- Errors of the snapshot engine. -/
inductive SnapErr where
  | statFailed
  | walkFailed
  | badPattern
  | hashFailed
  | unsupportedAlgorithm
  deriving Repr, DecidableEq

/-- Model of `utils.HashFile` (part_000) applied to entry `name` of the
directory listed by `dirAll`: open (following symlinks), then digest
the bytes read. -/
def HashFile (dirAll : List (String × FNode)) (name : String)
    (algorithm : String) : Except SnapErr String :=
  match openRead dirAll name with
  | none => .error .hashFailed
  | some content =>
    match digestHex algorithm content with
    | .error _ => .error .unsupportedAlgorithm
    | .ok h => .ok h

/-- `snapshot.File` (snapshot.go). -/
structure File where
  path : String
  hash : String
  size : Int
  modifiedTime : Nat
  isSymlink : Bool
  symlinkTarget : String
  deriving Repr, DecidableEq

/-- `snapshot.Stats` (snapshot.go). -/
structure Stats where
  totalFiles : Nat
  totalSize : Int
  symlinkCount : Nat
  regularFiles : Nat
  excludedFiles : Nat
  processingTime : Int
  deriving Repr, DecidableEq

/-- `snapshot.Snapshot` (snapshot.go). -/
structure Snapshot where
  id : String
  timestamp : Nat
  files : List File
  user : String
  message : String
  stats : Stats
  deriving Repr, DecidableEq

/-- The `lstat` size of a node: content length for regular files, target
length for symlinks. -/
def nodeSize : FNode → Int
  | .file c _ => (c.length : Int)
  | .symlink t _ => ((strBytes t).length : Int)
  | _ => 0

/-- Append one file record and update the statistics, exactly as the two
`// Add file to snapshot` + `// Update stats` blocks of `processPath`
do. -/
def addFile (snap : Snapshot) (f : File) : Snapshot :=
  { snap with
    files := snap.files ++ [f]
    stats := { snap.stats with
      totalFiles := snap.stats.totalFiles + 1
      totalSize := snap.stats.totalSize + f.size
      symlinkCount :=
        snap.stats.symlinkCount + (if f.isSymlink then 1 else 0)
      regularFiles :=
        snap.stats.regularFiles + (if f.isSymlink then 0 else 1) } }

/-- First exclude pattern match, mirroring the `for _, pattern := range
path.Excludes` loop of `processPath`: a malformed pattern is an error,
a match wins immediately. -/
def matchAnyGo : List String → String → Except SnapErr Bool
  | [], _ => .ok false
  | p :: ps, rel =>
    match goMatch p rel with
    | none => .error .badPattern
    | some true => .ok true
    | some false => matchAnyGo ps rel

/-- The `filepath.Walk` callback loop of `processPath` over the entries
of one directory (the tracked root itself is skipped by the callback
before this loop starts).  `dirAll` is the complete listing of the
current directory (symlink targets resolve against it), `absDir` and
`relDir` are the absolute prefix and the prefix relative to the tracked
root (empty or `/`-terminated), `todo` the entries still to visit. -/
def walkEntries (algorithm : String) (excludes : List String)
    (dirAll : List (String × FNode)) (absDir relDir : String) :
    List (String × FNode) → Snapshot → Except SnapErr Snapshot
  | [], snap => .ok snap
  | (name, node) :: rest, snap =>
    -- a failed lstat reaches the callback as a non-nil error and aborts
    match node with
    | .ioErr => .error .walkFailed
    | node =>
      match matchAnyGo excludes (relDir ++ name) with
      | .error e => .error e
      | .ok true =>
        -- excluded: count it; a directory match prunes its whole subtree
        walkEntries algorithm excludes dirAll absDir relDir rest
          { snap with stats :=
            { snap.stats with excludedFiles := snap.stats.excludedFiles + 1 } }
      | .ok false =>
        match node with
        | .dir entries =>
          -- directories produce no record; walk their contents
          match walkEntries algorithm excludes entries (absDir ++ name ++ "/")
              (relDir ++ name ++ "/") entries snap with
          | .error e => .error e
          | .ok snap' => walkEntries algorithm excludes dirAll absDir relDir rest snap'
        | node =>
          match HashFile dirAll name algorithm with
          | .error e => .error e
          | .ok h =>
            let isSym : Bool := match node with | .symlink _ _ => true | _ => false
            let target : String := match node with | .symlink t _ => t | _ => ""
            let mt : Nat := match node with
              | .file _ m => m
              | .symlink _ m => m
              | _ => 0
            walkEntries algorithm excludes dirAll absDir relDir rest
              (addFile snap ⟨absDir ++ name, h, nodeSize node, mt, isSym, target⟩)
termination_by todo _ => sizeOf todo
decreasing_by
  · simp_arith
  · simp_arith
  · simp_arith
  · simp_arith

/-- Result of `os.Stat` on a tracked root (`os.Stat` follows symlinks,
so it never reports a symlink; a dangling link is a not-exist error). -/
inductive StatResult where
  | notExist
  | ioErr
  | node (n : FNode)

/-- `snapshot.TrackedPath` (tracking.go) together with what the
filesystem holds at that path. -/
structure TrackedPath where
  path : String
  isDir : Bool
  excludes : List String
  stat : StatResult

/-- Model of `processPath` (snapshot.go). -/
def processPath (algorithm : String) (tp : TrackedPath) (snap : Snapshot) :
    Except SnapErr Snapshot :=
  match tp.stat with
  | .notExist => .ok snap -- skip non-existent paths silently
  | .ioErr => .error .statFailed
  | .node n =>
    match n with
    | .dir entries =>
      walkEntries algorithm tp.excludes entries (tp.path ++ "/") "" entries snap
    | .file content mtime =>
      -- single file; os.Stat followed symlinks already, so the symlink
      -- mode bit is never set here and the record has is_symlink=false
      match digestHex algorithm content with
      | .error _ => .error .unsupportedAlgorithm
      | .ok h =>
        .ok (addFile snap ⟨tp.path, h, (content.length : Int), mtime, false, ""⟩)
    | _ =>
      -- unreachable stat views (a symlink or I/O-error node cannot be
      -- the result of a successful os.Stat); modeled as a stat failure
      .error .statFailed

/-- The `for _, path := range trackedPaths` loop of `CreateSnapshot`. -/
def processAll (algorithm : String) : List TrackedPath → Snapshot →
    Except SnapErr Snapshot
  | [], snap => .ok snap
  | tp :: rest, snap =>
    match processPath algorithm tp snap with
    | .error e => .error e
    | .ok snap' => processAll algorithm rest snap'

/-- Model of `CreateSnapshot` (snapshot.go).  `now` stands for the start
wall-clock reading; the processing-time stat is the elapsed time, which
the model takes as an opaque parameter `elapsed`. -/
def CreateSnapshot (trackedPaths : List TrackedPath) (user message : String)
    (algorithm : String) (now : Nat) (elapsed : Int) : Except SnapErr Snapshot :=
  let snapshot : Snapshot :=
    { id := toString now
      timestamp := now
      user := user
      message := message
      files := []
      stats := ⟨0, 0, 0, 0, 0, 0⟩ }
  match processAll algorithm trackedPaths snapshot with
  | .error e => .error e
  | .ok snap =>
    .ok { snap with stats := { snap.stats with processingTime := elapsed } }

/-! ## Go maps as association lists -/

/-- Go-map insertion: replace the binding if the key is present, append
a new binding otherwise. -/
def mapInsert {α : Type} : List (String × α) → String → α → List (String × α)
  | [], k, v => [(k, v)]
  | (k', v') :: rest, k, v =>
    if k' = k then (k, v) :: rest else (k', v') :: mapInsert rest k v

/-- Go-map lookup. -/
def mapLookup {α : Type} : List (String × α) → String → Option α
  | [], _ => none
  | (k', v') :: rest, k => if k' = k then some v' else mapLookup rest k

/-! ## Diff/bundle engine (part_002, the authoritative `bundle` package)

Snapshots are taken as values (`snapshot.Load` is a JSON read modeled
as faithful); the working tree that `readAndCompressFile` reads from is
an abstract partial map `fsRead` from absolute paths to bytes. -/

/-- `snapshot.TrackedPath` as carried inside a bundle's tracking
configuration. -/
structure TrackedPathCfg where
  path : String
  isDir : Bool
  excludes : List String
  deriving Repr, DecidableEq

/-- `snapshot.RepositoryState` (tracking.go). -/
structure RepositoryState where
  isClosed : Bool
  closedAt : Nat
  closedBy : String
  lastModified : Nat
  deriving Repr, DecidableEq

/-- `snapshot.TrackingConfig` (tracking.go). -/
structure TrackingConfig where
  state : RepositoryState
  paths : List TrackedPathCfg
  deriving Repr, DecidableEq

/-- The repository configuration block of a bundle. -/
structure RepoConfig where
  hashAlgorithm : String
  compressionLevel : Int
  deriving Repr, DecidableEq

/-- The `Repository` block of `bundle.Bundle` (part_002);
`trackingConfig` is a Go pointer, hence `Option`. -/
structure RepoInfo where
  name : String
  dspDir : String
  dataDir : String
  config : RepoConfig
  trackingConfig : Option TrackingConfig
  deriving Repr, DecidableEq

/-- `bundle.Change` (part_002).  Empty strings model the omitted
`omitempty` fields. -/
structure Change where
  path : String
  type : String
  hash : String
  size : Int
  modifiedTime : Nat
  isSymlink : Bool
  symlinkTarget : String
  contentHash : String
  deriving Repr, DecidableEq

/-- `bundle.Bundle` (part_002).  `createdAt = 0` models the zero
`time.Time`; `fileContents` is the `FileContents` Go map (excluded from
the JSON metadata). -/
structure Bundle where
  id : String
  createdAt : Nat
  createdBy : String
  description : String
  isInitial : Bool
  sourceSnapshot : String
  targetSnapshot : String
  repository : RepoInfo
  changes : List Change
  fileContents : List (String × Bytes)
  deriving Repr, DecidableEq

/-- Errors of bundle creation. -/
inductive NewErr where
  | readFailed
  deriving Repr, DecidableEq

/-- Model of `readAndCompressFile` (part_002). -/
def readAndCompressFile (fsRead : String → Option Bytes) (level : Int)
    (path : String) : Except NewErr Bytes :=
  match fsRead path with
  | none => .error .readFailed
  | some content => .ok (Compress level content)

/-- The `path → File` maps of `computeChanges`, built by iterating the
snapshot's file list (later entries overwrite earlier ones, as in a Go
map). -/
def buildFileMap (files : List File) : List (String × File) :=
  files.foldl (fun m f => mapInsert m f.path f) []

/-- The change record emitted for a target file, with the given type
and content hash. -/
def mkChange (f : File) (ty : String) (contentHash : String) : Change :=
  { path := f.path
    type := ty
    hash := f.hash
    size := f.size
    modifiedTime := f.modifiedTime
    isSymlink := f.isSymlink
    symlinkTarget := f.symlinkTarget
    contentHash := contentHash }

/-- The target-file loop of `computeChanges` (and, with an empty source
map, the initial-bundle loop of `New`, which is the same add branch run
for every file): emit `add` for paths absent from the source, `modify`
for paths whose hash differs, nothing otherwise; read and compress the
current on-disk content for every emitted change. -/
def addsMods (fsRead : String → Option Bytes) (level : Int)
    (sourceMap : List (String × File)) :
    List File → List Change × List (String × Bytes) →
    Except NewErr (List Change × List (String × Bytes))
  | [], acc => .ok acc
  | f :: rest, (cs, fc) =>
    match mapLookup sourceMap f.path with
    | none =>
      match readAndCompressFile fsRead level f.path with
      | .error e => .error e
      | .ok content =>
        addsMods fsRead level sourceMap rest
          (cs ++ [mkChange f "add" (HashBytes content)],
           mapInsert fc f.path content)
    | some sourceFile =>
      if sourceFile.hash ≠ f.hash then
        match readAndCompressFile fsRead level f.path with
        | .error e => .error e
        | .ok content =>
          addsMods fsRead level sourceMap rest
            (cs ++ [mkChange f "modify" (HashBytes content)],
             mapInsert fc f.path content)
      else
        addsMods fsRead level sourceMap rest (cs, fc)

/-- The deleted-files loop of `computeChanges`: every source path absent
from the target map becomes a `delete` change (no payload). -/
def deletesGo (targetMap : List (String × File)) : List File → List Change
  | [] => []
  | f :: rest =>
    (if (mapLookup targetMap f.path).isNone then [mkChange f "delete" ""] else [])
      ++ deletesGo targetMap rest

/-- Model of `Bundle.computeChanges` (part_002). -/
def computeChanges (fsRead : String → Option Bytes) (level : Int)
    (source target : Snapshot) :
    Except NewErr (List Change × List (String × Bytes)) :=
  let sourceMap := buildFileMap source.files
  let targetMap := buildFileMap target.files
  match addsMods fsRead level sourceMap target.files ([], []) with
  | .error e => .error e
  | .ok (cs, fc) => .ok (cs ++ deletesGo targetMap source.files, fc)

/-- Model of `bundle.New` (part_002).  `source` is `none` for an
initial bundle (empty source snapshot path); snapshot loading and the
repository-config read are taken as values. -/
def bundleNew (now : Nat) (createdBy : String) (repo : RepoInfo)
    (source : Option (String × Snapshot)) (targetName : String)
    (target : Snapshot) (fsRead : String → Option Bytes) :
    Except NewErr Bundle :=
  let base : Bundle :=
    { id := toString now
      createdAt := now
      createdBy := createdBy
      description := ""
      isInitial := source.isNone
      sourceSnapshot := match source with | none => "" | some (n, _) => n
      targetSnapshot := targetName
      repository := repo
      changes := []
      fileContents := [] }
  match source with
  | none =>
    -- initial bundle: every target file is an addition
    match addsMods fsRead repo.config.compressionLevel [] target.files ([], []) with
    | .error e => .error e
    | .ok (cs, fc) => .ok { base with changes := cs, fileContents := fc }
  | some (_, sourceSnap) =>
    match computeChanges fsRead repo.config.compressionLevel sourceSnap target with
    | .error e => .error e
    | .ok (cs, fc) => .ok { base with changes := cs, fileContents := fc }

/-- The `(type, path)` sequence that the target loop emits, read off the
source map: `add` where the path is new, `modify` where the hash
changed, nothing where it is unchanged. -/
def emittedTP (sourceMap : List (String × File)) : List File → List (String × String)
  | [] => []
  | f :: rest =>
    match mapLookup sourceMap f.path with
    | none => ("add", f.path) :: emittedTP sourceMap rest
    | some sf =>
      if sf.hash ≠ f.hash then ("modify", f.path) :: emittedTP sourceMap rest
      else emittedTP sourceMap rest

/-- The file list of the (possibly absent) source snapshot. -/
def sourceFilesOf : Option (String × Snapshot) → List File
  | none => []
  | some (_, s) => s.files

/-! ## Bundle verification (Bundle.Verify, part_002) -/

/-- The errors of `Bundle.Verify`, in source order. -/
inductive VerifyErr where
  | noID
  | noCreationTime
  | noCreator
  | noSourceSnapshot
  | noTargetSnapshot
  | noRepositoryName
  | noDSPDir
  | noDataDir
  | noHashAlgorithm
  | invalidCompressionLevel
  | noTrackingConfig
  | noChanges
  | changeNoPath (i : Nat)
  | changeNoType (i : Nat)
  | changeInvalidType (i : Nat)
  | changeNoHash (i : Nat)
  | changeInvalidSize (i : Nat)
  | changeSymlinkNoTarget (i : Nat)
  deriving Repr, DecidableEq

/-- The per-change checks of `Bundle.Verify`. -/
def verifyChange (i : Nat) (c : Change) : Except VerifyErr Unit :=
  if c.path = "" then .error (.changeNoPath i)
  else if c.type = "" then .error (.changeNoType i)
  else if c.type ≠ "add" ∧ c.type ≠ "modify" ∧ c.type ≠ "delete" then
    .error (.changeInvalidType i)
  else if c.hash = "" then .error (.changeNoHash i)
  else if c.size < 0 then .error (.changeInvalidSize i)
  else if c.isSymlink ∧ c.symlinkTarget = "" then .error (.changeSymlinkNoTarget i)
  else .ok ()

/-- The `for i, change := range b.Changes` loop of `Bundle.Verify`. -/
def verifyChanges (i : Nat) : List Change → Except VerifyErr Unit
  | [] => .ok ()
  | c :: rest =>
    match verifyChange i c with
    | .error e => .error e
    | .ok () => verifyChanges (i + 1) rest

/-- Model of `Bundle.Verify` (part_002).  Note that it checks only the
scalar fields and per-change field validity: no payload (file content)
check of any kind is performed, and `sourceSnapshot = ""` — an initial
bundle — is rejected. -/
def bundleVerify (b : Bundle) : Except VerifyErr Unit :=
  if b.id = "" then .error .noID
  else if b.createdAt = 0 then .error .noCreationTime
  else if b.createdBy = "" then .error .noCreator
  else if b.sourceSnapshot = "" then .error .noSourceSnapshot
  else if b.targetSnapshot = "" then .error .noTargetSnapshot
  else if b.repository.name = "" then .error .noRepositoryName
  else if b.repository.dspDir = "" then .error .noDSPDir
  else if b.repository.dataDir = "" then .error .noDataDir
  else if b.repository.config.hashAlgorithm = "" then .error .noHashAlgorithm
  else if b.repository.config.compressionLevel < 1 ∨
      9 < b.repository.config.compressionLevel then
    .error .invalidCompressionLevel
  else if b.repository.trackingConfig = none then .error .noTrackingConfig
  else if b.changes = [] then .error .noChanges
  else verifyChanges 0 b.changes

/-! ## Bundle archive: Save/Load (part_002) over a zip model
(compression.go)

A zip archive is a list of entries; an entry whose name carries a
trailing slash is a directory entry.  The JSON codec for
`metadata.json` is abstracted as faithful (`ZipData.meta` holds the
decoded record). -/

/-- Payload of a zip entry. -/
inductive ZipData where
  | bytes (bs : Bytes)
  | meta (b : Bundle)
  deriving Repr, DecidableEq

/-- One zip entry, as produced by `zipWriter.Create(name)`: the entry is
a directory entry exactly when `name` ends in `/`. -/
structure ZipEntry where
  name : String
  isDir : Bool
  data : ZipData
  deriving Repr, DecidableEq

/-- Errors of archive packing/unpacking and bundle loading. -/
inductive LoadErr where
  | openFailed
  | extractFailed
  | readMetadataFailed
  | parseFailed
  | readContentsDirFailed
  | readContentFailed
  | verifyFailed (e : VerifyErr)
  deriving Repr, DecidableEq

/-- Whether a path's last byte is the separator (Go checks
`path[len(path)-1] == '/'`). -/
def endsWithSep (s : String) : Bool := s.data.getLast? = some '/'

/-- Split a path into components at `/`, dropping empty segments
(kernel-computable replacement for `splitOn`). -/
def splitCleanAux : List Char → List Char → List String
  | [], acc => if acc.isEmpty then [] else [String.mk acc.reverse]
  | c :: rest, acc =>
    if c = '/' then
      if acc.isEmpty then splitCleanAux rest []
      else String.mk acc.reverse :: splitCleanAux rest []
    else splitCleanAux rest (c :: acc)

/-- Path components, empty segments dropped. -/
def splitClean (s : String) : List String :=
  splitCleanAux s.data []

/-- Lexicographic byte order on names (the order `os.ReadDir` sorts
by). -/
def lexLe : List Char → List Char → Bool
  | [], _ => true
  | _ :: _, [] => false
  | a :: as, b :: bs =>
    if a.toNat < b.toNat then true
    else if a = b then lexLe as bs
    else false

/-- Rebuild a path from components. -/
def joinPath (comps : List String) : String :=
  String.intercalate "/" comps

/-- Model of `filepath.Dir` on archive entry names: the name's parent
path, or `"."` when there is none. -/
def dirOf (name : String) : String :=
  match (splitClean name).dropLast with
  | [] => "."
  | comps => joinPath comps

/-- Model of `utils.CreateZipArchive` (compression.go).  `readFileAt`
is the temp-directory filesystem the paths refer to.  The `files` map
is iterated in list order (Go map order is unspecified; every order
yields the same archive up to entry order, which extraction ignores).
Faithfully modeled bug: for a path with a trailing slash — "Add
directory" — the function only calls `zipWriter.Create(name)`, creating
an empty NON-directory entry named `name`, and never archives the files
inside that directory. -/
def createZipArchive (readFileAt : String → Option Bytes) :
    List (String × String) → List ZipEntry → Except LoadErr (List ZipEntry)
  | [], acc => .ok acc
  | (name, path) :: rest, acc =>
    if path = "" then
      createZipArchive readFileAt rest (acc ++ [⟨name, endsWithSep name, .bytes []⟩])
    else if endsWithSep path then
      createZipArchive readFileAt rest (acc ++ [⟨name, endsWithSep name, .bytes []⟩])
    else
      match readFileAt path with
      | none => .error .openFailed
      | some bs =>
        let dirEntries : List ZipEntry :=
          if dirOf name ≠ "." then [⟨dirOf name ++ "/", true, .bytes []⟩] else []
        createZipArchive readFileAt rest
          (acc ++ dirEntries ++ [⟨name, endsWithSep name, .bytes bs⟩])

/-- Model of `utils.UpdateZipFile` (compression.go): copy every entry
except `filename`, then append the new entry. -/
def updateZipFile (entries : List ZipEntry) (filename : String) (d : ZipData) :
    List ZipEntry :=
  entries.filter (fun e => e.name ≠ filename) ++
    [⟨filename, endsWithSep filename, d⟩]

/-- Model of `Bundle.Save` (part_002): write the content blobs into a
temp directory under their `HashBytes` names, create the archive from
the map `{metadata.json ↦ "", contents ↦ <tempdir>/}`, then update
`metadata.json` with the marshaled bundle (whose `FileContents` is
excluded by its `json:"-"` tag).  The temp-directory filesystem serves
the blob files, but the trailing-slash branch of `createZipArchive`
never reads them. -/
def bundleSave (b : Bundle) : Except LoadErr (List ZipEntry) :=
  let tempRead : String → Option Bytes := fun p =>
    (b.fileContents.find? (fun pc => "tmp/contents/" ++ HashBytes pc.2 = p)).map
      (fun pc => pc.2)
  match createZipArchive tempRead
      [("metadata.json", ""), ("contents", "tmp/contents/")] [] with
  | .error e => .error e
  | .ok entries =>
    .ok (updateZipFile entries "metadata.json" (.meta { b with fileContents := [] }))

/-- A node of the extraction target directory. -/
inductive ExNode where
  | dir
  | file (d : ZipData)
  deriving Repr, DecidableEq

/-- The extraction directory: map from (relative) path to node. -/
abbrev ExFs := List (String × ExNode)

/-- Insertion sort of directory entries by name. -/
def insertByName (e : String × ExNode) : List (String × ExNode) → List (String × ExNode)
  | [] => [e]
  | e' :: rest =>
    if lexLe e.1.data e'.1.data then e :: e' :: rest else e' :: insertByName e rest

/-- Sort directory entries by name. -/
def sortByName : List (String × ExNode) → List (String × ExNode)
  | [] => []
  | e :: rest => insertByName e (sortByName rest)

/-- Model of `os.MkdirAll` for one path: create each missing ancestor,
fail if an existing component is a regular file. -/
def mkdirAll (fs : ExFs) (comps : List String) (pre : List String) :
    Except LoadErr ExFs :=
  match comps with
  | [] => .ok fs
  | c :: rest =>
    let p := joinPath (pre ++ [c])
    match mapLookup fs p with
    | some .dir => mkdirAll fs rest (pre ++ [c])
    | some (.file _) => .error .extractFailed
    | none => mkdirAll (mapInsert fs p .dir) rest (pre ++ [c])

/-- Model of `utils.ExtractZipArchive` (compression.go): directory
entries become directories; file entries get their parent directories
created and are then written (`os.Create` fails on an existing
directory). -/
def extractZipArchive : List ZipEntry → ExFs → Except LoadErr ExFs
  | [], fs => .ok fs
  | e :: rest, fs =>
    if e.isDir then
      match mkdirAll fs (splitClean e.name) [] with
      | .error err => .error err
      | .ok fs' => extractZipArchive rest fs'
    else
      match mkdirAll fs (splitClean e.name).dropLast [] with
      | .error err => .error err
      | .ok fs' =>
        match mapLookup fs' e.name with
        | some .dir => .error .extractFailed
        | _ => extractZipArchive rest (mapInsert fs' e.name (.file e.data))

/-- The name of `full` as a direct child of directory `d`, if it is one. -/
def childNameOf (d full : String) : Option String :=
  let dc := splitClean d
  let fc := splitClean full
  if fc.length = dc.length + 1 ∧ fc.take dc.length = dc then fc.getLast? else none

/-- Model of `os.ReadDir`: the direct children of `d`, sorted by name
(`ReadDir` returns entries sorted by filename). -/
def readDirM (fs : ExFs) (d : String) : Except LoadErr (List (String × ExNode)) :=
  match mapLookup fs d with
  | some .dir =>
    .ok (sortByName (fs.filterMap (fun pn =>
      (childNameOf d pn.1).map (fun n => (n, pn.2)))))
  | _ => .error .readContentsDirFailed

/-- The content-binding loop of `Load` (part_002): for each entry of
`contents/`, find the FIRST change whose `content_hash` equals the
entry name and bind that change's path to the blob; entries matching no
change are ignored, and later changes with the same `content_hash` are
never bound (the loop breaks at the first match).  The blob itself is
never re-hashed. -/
def bindContents (changes : List Change) :
    List (String × ExNode) → List (String × Bytes) →
    Except LoadErr (List (String × Bytes))
  | [], fc => .ok fc
  | (name, node) :: rest, fc =>
    match node with
    | .dir => bindContents changes rest fc
    | .file (.meta _) => .error .readContentFailed
    | .file (.bytes bs) =>
      match changes.find? (fun c => c.contentHash = name) with
      | some c => bindContents changes rest (mapInsert fc c.path bs)
      | none => bindContents changes rest fc

/-- Model of `Load` (part_002): extract, parse `metadata.json`, rebind
the file contents from `contents/`, then run `Bundle.Verify`. -/
def bundleLoad (archive : List ZipEntry) : Except LoadErr Bundle :=
  match extractZipArchive archive [] with
  | .error e => .error e
  | .ok fs =>
    match mapLookup fs "metadata.json" with
    | some (.file (.meta m)) =>
      match readDirM fs "contents" with
      | .error e => .error e
      | .ok entries =>
        match bindContents m.changes entries [] with
        | .error e => .error e
        | .ok fc =>
          match bundleVerify { m with fileContents := fc } with
          | .error e => .error (.verifyFailed e)
          | .ok () => .ok { m with fileContents := fc }
    | some (.file (.bytes _)) => .error .parseFailed
    | _ => .error .readMetadataFailed

/-! ## Export server: token lifecycle (export.go)

Every access to the token map, the pool and the download counter in the
Go server is serialized by the `ExportServer`/`ExportAuth` mutexes, so
the server is modeled as a sequential state machine over a linearized
trace of events.  `generateTokens` fills the pool with `maxDownloads`
fresh 32-byte random tokens; the model takes the pool as a parameter
(distinctness of the random tokens is a hypothesis where needed). -/

/-- `exportcmd.TokenInfo` (export.go). -/
structure TokenInfo where
  token : String
  expiry : Nat
  used : Bool
  clientIP : String
  assignedAt : Nat
  deriving Repr, DecidableEq

/-- `exportcmd.ExportAuth` (export.go), password mode. -/
structure ExportAuth where
  password : String
  tokens : List (String × TokenInfo)
  tokenPool : List String
  deriving Repr, DecidableEq

/-- The server state the handlers mutate. -/
structure ExportServer where
  auth : ExportAuth
  downloads : Nat
  maxDownloads : Nat
  shutdown : Bool
  deriving Repr, DecidableEq

/-- Token lifetime (5 minutes, in seconds). -/
def tokenTTL : Nat := 300

/-- Model of `ExportServer.assignToken` (export.go): return the
client's existing live token if it has one (Go iterates the token map
in unspecified order; the model takes the first match — at most one
can exist for the properties proved here), otherwise pop the pool head
and bind it to the client. -/
def assignToken (a : ExportAuth) (clientIP : String) (now : Nat) :
    ExportAuth × Option String :=
  match a.tokens.find? (fun kv =>
      decide (kv.2.clientIP = clientIP ∧ kv.2.used = false ∧ now < kv.2.expiry)) with
  | some kv => (a, some kv.1)
  | none =>
    match a.tokenPool with
    | [] => (a, none)
    | t :: rest =>
      ({ a with
          tokens := mapInsert a.tokens t ⟨t, now + tokenTTL, false, clientIP, now⟩
          tokenPool := rest }, some t)

/-- The rejections of `ExportServer.verifyToken`. -/
inductive TokenErr where
  | invalid
  | alreadyUsed
  | expired
  | wrongClient
  deriving Repr, DecidableEq

/-- Model of `ExportServer.verifyToken` (export.go): check existence,
non-use, expiry (`time.Now().After(expiry)` is strict) and the bound
client IP, then mark the token used.  Returns the updated auth state
and the token's info as it was at the moment of consumption. -/
def verifyToken (a : ExportAuth) (token clientIP : String) (now : Nat) :
    Except TokenErr (ExportAuth × TokenInfo) :=
  match mapLookup a.tokens token with
  | none => .error .invalid
  | some info =>
    if info.used then .error .alreadyUsed
    else if info.expiry < now then .error .expired
    else if info.clientIP ≠ clientIP then .error .wrongClient
    else .ok ({ a with tokens := mapInsert a.tokens token { info with used := true } },
      info)

/-- One HTTP request, linearized. -/
inductive Event where
  | status (clientIP password : String) (now : Nat)
  | download (token clientIP password : String) (now : Nat)

/-- A successful token consumption, with the token's binding as read at
the moment of consumption. -/
structure Consumption where
  token : String
  clientIP : String
  time : Nat
  expiry : Nat
  assignedIP : String
  deriving Repr, DecidableEq

/-- Model of `handleStatus` (export.go): authenticate by `X-Password`,
then assign a token (a full pool-exhausted response is 403 and changes
nothing). -/
def handleStatus (s : ExportServer) (clientIP password : String) (now : Nat) :
    ExportServer :=
  if password ≠ s.auth.password then s
  else { s with auth := (assignToken s.auth clientIP now).1 }

/-- Model of `handleDownload` (export.go), password mode: authenticate,
verify-and-consume the token, then run the download-limit check and
counter increment.  The payload phase (reading, verifying and
encrypting the bundle) touches no token state except a final re-mark of
the already-used token, which is modeled by the second `mapInsert`; its
possible failures (see `encryptedDownloadPayload`) abort the response
but un-consume nothing. -/
def handleDownload (s : ExportServer) (token clientIP password : String)
    (now : Nat) : ExportServer × List Consumption :=
  if password ≠ s.auth.password then (s, [])
  else
    match verifyToken s.auth token clientIP now with
    | .error _ => (s, [])
    | .ok (a', info) =>
      let cons : List Consumption := [⟨token, clientIP, now, info.expiry, info.clientIP⟩]
      let s1 : ExportServer := { s with auth := a' }
      if 0 < s1.maxDownloads ∧ s1.maxDownloads ≤ s1.downloads then
        ({ s1 with shutdown := true }, cons)
      else
        let s2 : ExportServer := { s1 with downloads := s1.downloads + 1 }
        let a3 : ExportAuth :=
          match mapLookup s2.auth.tokens token with
          | some ti =>
            { s2.auth with tokens := mapInsert s2.auth.tokens token { ti with used := true } }
          | none => s2.auth
        let s3 : ExportServer := { s2 with auth := a3 }
        if 0 < s3.maxDownloads ∧ s3.maxDownloads ≤ s3.downloads then
          ({ s3 with shutdown := true }, cons)
        else (s3, cons)

/-- One request step. -/
def serverStep (s : ExportServer) : Event → ExportServer × List Consumption
  | .status ip pw now => (handleStatus s ip pw now, [])
  | .download tok ip pw now => handleDownload s tok ip pw now

/-- Run a linearized request trace, collecting the consumptions. -/
def serverRun (s : ExportServer) : List Event → ExportServer × List Consumption
  | [] => (s, [])
  | e :: rest =>
    let r1 := serverStep s e
    let r2 := serverRun r1.1 rest
    (r2.1, r1.2 ++ r2.2)

/-- The server state right after `generateTokens` filled the pool. -/
def initServer (password : String) (pool : List String) (maxDl : Nat) :
    ExportServer :=
  { auth := ⟨password, [], pool⟩, downloads := 0, maxDownloads := maxDl,
    shutdown := false }

/-- The token is assigned and marked used. -/
def usedIn (a : ExportAuth) (t : String) : Prop :=
  ∃ info, mapLookup a.tokens t = some info ∧ info.used = true

/-- Well-formedness of the auth state: distinct map keys, distinct
pooled tokens, pooled tokens not yet in the map, and map + pool no
larger than the generated pool. -/
def AuthInv (a : ExportAuth) (maxD : Nat) : Prop :=
  (a.tokens.map (fun kv => kv.1)).Nodup ∧
  a.tokenPool.Nodup ∧
  (∀ t ∈ a.tokenPool, mapLookup a.tokens t = none) ∧
  a.tokens.length + a.tokenPool.length ≤ maxD

/-- Failure modes of the encrypted-download payload construction. -/
inductive EncErr where
  | nilPointerPanic
  | noValidTokens
  deriving Repr, DecidableEq

/-- The recipient-construction loop of `handleDownload`'s encrypted
branch (export.go lines 364–383), faithfully: it iterates the TOKEN
POOL (`s.auth.TokenPool` — the tokens never yet assigned) and looks
each up in the assigned-token map `s.auth.Tokens`; a pooled token has
no map entry, so `s.auth.Tokens[tokenID]` is nil and the `.Used`
dereference panics.  Each passphrase is `password ∥ token`. -/
def buildRecipients (a : ExportAuth) : List String → Except EncErr (List String)
  | [] => .ok []
  | t :: rest =>
    match mapLookup a.tokens t with
    | none => .error .nilPointerPanic
    | some info =>
      if info.used then buildRecipients a rest
      else
        match buildRecipients a rest with
        | .error e => .error e
        | .ok rs => .ok ((a.password ++ info.token) :: rs)

/-- The encrypted branch after `verifyToken` succeeded: build the
scrypt recipients from the pool, failing with HTTP 500 when none
remain. -/
def encryptedDownloadPayload (a : ExportAuth) : Except EncErr (List String) :=
  match buildRecipients a a.tokenPool with
  | .error e => .error e
  | .ok [] => .error .noValidTokens
  | .ok rs => .ok rs

/-! ## Host certificate pinning (host.go, import.go) -/

/-- `host.CertificateInfo` (host.go).  Times are modeled as naturals. -/
structure CertificateInfo where
  fingerprint : String
  validFrom : Nat
  validTo : Nat
  lastVerified : Nat
  deriving Repr, DecidableEq

/-- `host.Host` (host.go), restricted to the fields the certificate
logic reads. -/
structure Host where
  name : String
  publicKey : String
  trusted : Bool
  certInfo : Option CertificateInfo
  deriving Repr, DecidableEq

/-- Certificate-verification errors. -/
inductive CertErr where
  | fingerprintMismatch
  | storedCertExpired
  | rollback
  | exportInfoMismatch
  deriving Repr, DecidableEq

/-- Model of `Host.VerifyCertificate` (host.go): with no stored
certificate this is "the first time" and it accepts anything;
otherwise the fingerprint must match, the stored certificate must not
be expired, and a new certificate expiring before the stored one is a
rollback. -/
def verifyCertificate (h : Host) (fingerprint : String)
    (validFrom validTo now : Nat) : Except CertErr Unit :=
  match h.certInfo with
  | none => .ok ()
  | some ci =>
    if ci.fingerprint ≠ fingerprint then .error .fingerprintMismatch
    else if ci.validTo < now then .error .storedCertExpired
    else if validTo < ci.validTo then .error .rollback
    else .ok ()

/-- Model of `Host.UpdateCertificate` (host.go). -/
def updateCertificate (h : Host) (fingerprint : String)
    (validFrom validTo now : Nat) : Host :=
  { h with certInfo := some ⟨fingerprint, validFrom, validTo, now⟩ }

/-- Model of the certificate-verification block of `downloadBundle`
(import.go, lines 285–310): compute the server certificate's
fingerprint, run `VerifyCertificate`, and only IF THAT ERRED fall into
the first-contact branch comparing against
`ExportInfo.cert_fingerprint`.  Since `VerifyCertificate` returns nil
whenever no certificate is stored, that branch is unreachable: on first
contact any certificate is accepted and nothing is pinned. -/
def downloadCertCheck (hostEntry : Host) (exportFp fp : String)
    (validFrom validTo now : Nat) : Except CertErr Host :=
  match verifyCertificate hostEntry fp validFrom validTo now with
  | .ok () => .ok hostEntry
  | .error e =>
    match hostEntry.certInfo with
    | none =>
      if fp ≠ exportFp then .error .exportInfoMismatch
      else .ok (updateCertificate hostEntry fp validFrom validTo now)
    | some _ => .error e

/-! ## Concrete instances used by witnesses and counterexamples -/

/-- A tracking configuration for the example bundles. -/
def exTracking : TrackingConfig := ⟨⟨false, 0, "", 0⟩, []⟩

/-- Example repository info (blake3, compression level 3). -/
def exRepo : RepoInfo := ⟨"repo", ".dsp", "data", ⟨"blake3", 3⟩, some exTracking⟩

/-- The metadata of a handcrafted archive: a well-formed non-initial
bundle with one `add` change whose `content_hash` is `"hX"`. -/
def c3meta : Bundle :=
  { id := "20240101"
    createdAt := 7
    createdBy := "u"
    description := ""
    isInitial := false
    sourceSnapshot := "s"
    targetSnapshot := "t"
    repository := exRepo
    changes := [⟨"/D/a.txt", "add", "blake3:[72]", 1, 5, false, "", "hX"⟩]
    fileContents := [] }

/-- A handcrafted bundle archive whose `contents/hX` blob `[9, 9]` does
NOT hash to the change's `content_hash` `"hX"`. -/
def c3archive : List ZipEntry :=
  [⟨"metadata.json", false, .meta c3meta⟩,
   ⟨"contents/", true, .bytes []⟩,
   ⟨"contents/hX", false, .bytes [9, 9]⟩]

/-- A concrete source snapshot for exercising `bundle.New`: two plain
files. -/
def c1S : Snapshot :=
  { id := "S"
    timestamp := 1
    files :=
      [⟨"/D/a.txt", "hA", 2, 1, false, ""⟩,
       ⟨"/D/b.txt", "hB", 3, 1, false, ""⟩]
    user := "u"
    message := ""
    stats := ⟨2, 5, 0, 2, 0, 0⟩ }

/-- A concrete target snapshot: `a.txt` re-hashed, `b.txt` gone. -/
def c1T : Snapshot :=
  { id := "T"
    timestamp := 2
    files := [⟨"/D/a.txt", "hA2", 2, 5, false, ""⟩]
    user := "u"
    message := ""
    stats := ⟨1, 2, 0, 1, 0, 0⟩ }

/-- The working tree `New` reads changed payloads from. -/
def c1fs : String → Option Bytes :=
  fun p => if p = "/D/a.txt" then some [1, 2] else none

/-- Repository info for the concrete bundle. -/
def c1repo : RepoInfo :=
  { name := "r"
    dspDir := "/D/.dsp"
    dataDir := "/D"
    config := { hashAlgorithm := "sha256", compressionLevel := 3 }
    trackingConfig := none }

/-- The bundle `New` produces on those inputs: one `modify`, one
`delete`. -/
def c1bundle : Bundle :=
  { id := "7"
    createdAt := 7
    createdBy := "me"
    description := ""
    isInitial := false
    sourceSnapshot := "S"
    targetSnapshot := "T"
    repository := c1repo
    changes :=
      [⟨"/D/a.txt", "modify", "hA2", 2, 5, false, "", "sha256:[3, 1, 2]"⟩,
       ⟨"/D/b.txt", "delete", "hB", 3, 1, false, "", ""⟩]
    fileContents := [("/D/a.txt", [3, 1, 2])] }

/-- A concrete directory: a regular file `f` with content `[104, 105]`
and a symlink `l` pointing at `f`. -/
def c7dir : List (String × FNode) :=
  [("f", FNode.file [104, 105] 1), ("l", FNode.symlink "f" 2)]

/-- SPEC-SIDE definition, written from the spec's walk/exclusion
wording (not from the source) for comparison with `walkEntries`: the
absolute paths the spec says a walk must include.  Each entry's path
relative to the tracked root is tested against every exclude; a
matching entry is omitted and a matching directory prunes its entire
subtree; a non-matching directory contributes its recursive inclusions
and a non-matching file or symlink contributes its absolute path. -/
def specIncludedPaths (excludes : List String) (absDir relDir : String) :
    List (String × FNode) → List String
  | [] => []
  | (name, node) :: rest =>
    (match matchAnyGo excludes (relDir ++ name) with
     | .ok false =>
       match node with
       | .dir entries =>
         specIncludedPaths excludes (absDir ++ name ++ "/")
           (relDir ++ name ++ "/") entries
       | _ => [absDir ++ name]
     | _ => []) ++ specIncludedPaths excludes absDir relDir rest
termination_by todo => sizeOf todo
decreasing_by
  · simp_arith
  · simp_arith

/-- The S3 scenario directory: `x.log` and `x.txt` under one tracked
root. -/
def c8dir : List (String × FNode) :=
  [("x.log", FNode.file [1] 1), ("x.txt", FNode.file [2, 3] 4)]

/-- An empty starting snapshot. -/
def c8snap0 : Snapshot := ⟨"0", 0, [], "u", "", ⟨0, 0, 0, 0, 0, 0⟩⟩

/-- What walking the S3 scenario produces: only `x.txt`, with the
`x.log` exclusion counted. -/
def c8result : Snapshot :=
  ⟨"0", 0, [⟨"/D/x.txt", "sha256:[2, 3]", 2, 4, false, ""⟩], "u", "",
    ⟨1, 2, 0, 1, 1, 0⟩⟩

/-- A tracked root that does not exist on the filesystem. -/
def c9tpMiss : TrackedPath := ⟨"/gone", false, [], .notExist⟩

/-- A tracked root whose `os.Stat` fails with a non-not-exist error. -/
def c9tpBad : TrackedPath := ⟨"/bad", false, [], .ioErr⟩

/-- Consistency of a snapshot's statistics with its file list. -/
def StatsInv (snap : Snapshot) : Prop :=
  snap.stats.totalFiles = snap.files.length ∧
  snap.stats.totalFiles = snap.stats.regularFiles + snap.stats.symlinkCount ∧
  snap.stats.totalSize = (snap.files.map (fun f => f.size)).sum

/-- The snapshot produced from one tracked regular file. -/
def c10snap : Snapshot :=
  ⟨"5", 5, [⟨"/D/f", "sha256:[1, 2]", 2, 3, false, ""⟩], "u", "",
    ⟨1, 2, 0, 1, 0, 7⟩⟩

/-! ## Verification results -/

/-! ## Lemmas about Go maps and the diff loops -/

theorem mapLookup_mapInsert {α : Type} (m : List (String × α)) (k k' : String) (v : α) :
    mapLookup (mapInsert m k v) k' = if k = k' then some v else mapLookup m k' := by
  induction m with
  | nil => by_cases h : k = k' <;> simp [mapInsert, mapLookup, h]
  | cons kv rest ih =>
    obtain ⟨k0, v0⟩ := kv
    by_cases h0 : k0 = k <;> by_cases h1 : k = k' <;>
      subst_eqs <;> simp_all [mapInsert, mapLookup]

theorem mapLookup_nil {α : Type} (k : String) :
    mapLookup ([] : List (String × α)) k = none := rfl

theorem mapLookup_buildFileMap_aux (files : List File) (m0 : List (String × File))
    (p : String) :
    mapLookup (files.foldl (fun m f => mapInsert m f.path f) m0) p =
      (files.reverse.find? (fun f => f.path = p)).or (mapLookup m0 p) := by
  induction files generalizing m0 with
  | nil => simp
  | cons f rest ih =>
    simp only [List.foldl_cons, List.reverse_cons, List.find?_append]
    rw [ih, mapLookup_mapInsert]
    rcases hfind : rest.reverse.find? (fun f => decide (f.path = p)) with _ | g
    · by_cases hc : f.path = p
      · simp [List.find?_cons, hc, Option.or, hfind]
      · simp [List.find?_cons, hc, Option.or, hfind]
    · simp [Option.or, hfind]

theorem mapLookup_buildFileMap (files : List File) (p : String) :
    mapLookup (buildFileMap files) p = files.reverse.find? (fun f => f.path = p) := by
  rw [buildFileMap, mapLookup_buildFileMap_aux, mapLookup_nil]
  simp

/-- Absence in the built map is absence of the path. -/
theorem buildFileMap_none (files : List File) (p : String) :
    mapLookup (buildFileMap files) p = none ↔ ∀ f ∈ files, f.path ≠ p := by
  rw [mapLookup_buildFileMap, List.find?_eq_none]
  constructor
  · intro h f hf hp
    exact h f (by simpa using hf) (by simpa using hp)
  · intro h f hf
    simp only [decide_eq_true_eq]
    exact h f (by simpa using hf)

/-- A hit in the built map is a file of the snapshot at that path. -/
theorem buildFileMap_some {files : List File} {p : String} {sf : File}
    (h : mapLookup (buildFileMap files) p = some sf) : sf ∈ files ∧ sf.path = p := by
  rw [mapLookup_buildFileMap] at h
  refine ⟨?_, ?_⟩
  · have := List.mem_of_find?_eq_some h
    simpa using this
  · have := List.find?_some h
    simpa using this

/-- With pathwise-unique files, the built map finds exactly the file of
the snapshot at each present path. -/
theorem buildFileMap_of_mem {files : List File} {f : File}
    (hnd : (files.map (fun f => f.path)).Nodup) (hf : f ∈ files) :
    mapLookup (buildFileMap files) f.path = some f := by
  rcases hres : mapLookup (buildFileMap files) f.path with _ | g
  · rw [buildFileMap_none] at hres
    exact absurd rfl (hres f hf)
  · obtain ⟨hgmem, hgpath⟩ := buildFileMap_some hres
    have := List.inj_on_of_nodup_map hnd hgmem hf hgpath
    rw [this]

theorem addsMods_types_paths (fsRead : String → Option Bytes) (level : Int)
    (sm : List (String × File)) :
    ∀ (files : List File) (acc : List Change × List (String × Bytes))
      (res : List Change × List (String × Bytes)),
      addsMods fsRead level sm files acc = .ok res →
      res.1.map (fun c => (c.type, c.path)) =
        acc.1.map (fun c => (c.type, c.path)) ++ emittedTP sm files := by
  intro files
  induction files with
  | nil =>
    intro acc res h
    rw [addsMods] at h
    cases h
    simp [emittedTP]
  | cons f rest ih =>
    intro acc res h
    obtain ⟨cs, fc⟩ := acc
    rw [addsMods] at h
    rcases hlk : mapLookup sm f.path with _ | sf <;> rw [hlk] at h
    · rcases hrd : readAndCompressFile fsRead level f.path with e | content <;>
        rw [hrd] at h
      · exact absurd h (by simp)
      · have := ih _ _ h
        simp only [emittedTP, hlk] at *
        simp only [this, List.map_append, List.map_cons, List.map_nil, mkChange,
          List.append_assoc, List.cons_append, List.nil_append]
    · simp only at h
      split at h
      · rcases hrd : readAndCompressFile fsRead level f.path with e | content <;>
          rw [hrd] at h
        · exact absurd h (by simp)
        · have := ih _ _ h
          simp only [emittedTP, hlk] at *
          split
          · rename_i hne
            simp only [this, List.map_append, List.map_cons, List.map_nil, mkChange,
              List.append_assoc, List.cons_append, List.nil_append]
          · rename_i hne
            exact absurd (by assumption) hne
      · have := ih _ _ h
        simp only [emittedTP, hlk] at *
        split
        · rename_i hne
          exact absurd hne (by simp_all)
        · exact this

theorem emittedTP_mem (sm : List (String × File)) (files : List File)
    (ty p : String) :
    (ty, p) ∈ emittedTP sm files ↔
      ∃ f ∈ files, f.path = p ∧
        ((ty = "add" ∧ mapLookup sm p = none) ∨
         (ty = "modify" ∧ ∃ sf, mapLookup sm p = some sf ∧ sf.hash ≠ f.hash)) := by
  induction files with
  | nil => simp [emittedTP]
  | cons f rest ih =>
    rw [emittedTP]
    cases hlk : mapLookup sm f.path with
    | none =>
      simp only [List.mem_cons, ih, Prod.mk.injEq]
      constructor
      · rintro (⟨hty, hp⟩ | ⟨g, hg, hgp, hrest⟩)
        · exact ⟨f, Or.inl rfl, hp.symm, Or.inl ⟨hty, by rw [hp]; exact hlk⟩⟩
        · exact ⟨g, Or.inr hg, hgp, hrest⟩
      · rintro ⟨g, hg, hgp, hrest⟩
        rcases hg with hgf | hgr
        · subst hgf
          rcases hrest with ⟨hty, _⟩ | ⟨hty, sf, hsf, _⟩
          · exact Or.inl ⟨hty, hgp.symm⟩
          · rw [hgp] at hlk
            rw [hlk] at hsf
            exact absurd hsf (by simp)
        · exact Or.inr ⟨g, hgr, hgp, hrest⟩
    | some sf =>
      by_cases hh : sf.hash = f.hash
      · simp only [hh, ne_eq, not_true_eq_false, if_false, ih]
        constructor
        · rintro ⟨g, hg, hgp, hrest⟩
          exact ⟨g, List.mem_cons_of_mem f hg, hgp, hrest⟩
        · rintro ⟨g, hg, hgp, hrest⟩
          rcases List.mem_cons.mp hg with hgf | hgr
          · subst hgf
            rcases hrest with ⟨hty, hnone⟩ | ⟨hty, sf', hsf', hne'⟩
            · rw [hgp] at hlk
              rw [hlk] at hnone
              exact absurd hnone (by simp)
            · rw [hgp] at hlk
              rw [hlk] at hsf'
              cases hsf'
              exact absurd hh hne'
          · exact ⟨g, hgr, hgp, hrest⟩
      · simp only [ne_eq, hh, not_false_eq_true, if_true, List.mem_cons, ih,
          Prod.mk.injEq]
        constructor
        · rintro (⟨hty, hp⟩ | ⟨g, hg, hgp, hrest⟩)
          · exact ⟨f, Or.inl rfl, hp.symm,
              Or.inr ⟨hty, sf, by rw [hp]; exact hlk, hh⟩⟩
          · exact ⟨g, Or.inr hg, hgp, hrest⟩
        · rintro ⟨g, hg, hgp, hrest⟩
          rcases hg with hgf | hgr
          · subst hgf
            rcases hrest with ⟨hty, hnone⟩ | ⟨hty, sf', hsf', hne'⟩
            · rw [hgp] at hlk
              rw [hlk] at hnone
              exact absurd hnone (by simp)
            · exact Or.inl ⟨hty, hgp.symm⟩
          · exact Or.inr ⟨g, hgr, hgp, hrest⟩

theorem deletesGo_mem (tm : List (String × File)) (files : List File) (c : Change) :
    c ∈ deletesGo tm files ↔
      ∃ f ∈ files, mapLookup tm f.path = none ∧ c = mkChange f "delete" "" := by
  induction files with
  | nil => simp [deletesGo]
  | cons f rest ih =>
    rw [deletesGo]
    cases hlk : mapLookup tm f.path with
    | none =>
      simp only [hlk, Option.isNone_none, if_pos, List.cons_append, List.nil_append,
        List.mem_cons, ih]
      constructor
      · rintro (hc | ⟨g, hg, hgn, hgc⟩)
        · exact ⟨f, Or.inl rfl, hlk, hc⟩
        · exact ⟨g, Or.inr hg, hgn, hgc⟩
      · rintro ⟨g, hg, hgn, hgc⟩
        rcases hg with hgf | hgr
        · exact Or.inl (hgf ▸ hgc)
        · exact Or.inr ⟨g, hgr, hgn, hgc⟩
    | some g0 =>
      simp only [hlk, Option.isNone_some, Bool.false_eq_true, not_false_eq_true,
        if_neg, List.nil_append, ih]
      constructor
      · rintro ⟨g, hg, hgn, hgc⟩
        exact ⟨g, List.mem_cons_of_mem f hg, hgn, hgc⟩
      · rintro ⟨g, hg, hgn, hgc⟩
        rcases List.mem_cons.mp hg with hgf | hgr
        · rw [← hgf] at hlk
          rw [hgn] at hlk
          exact absurd hlk (by simp)
        · exact ⟨g, hgr, hgn, hgc⟩

/-- Decompose a successful `bundleNew` into the target-loop output and
the delete loop; for an initial bundle the source file list is empty,
which makes both the source map and the delete list empty. -/
theorem bundleNew_changes (now : Nat) (createdBy targetName : String)
    (repo : RepoInfo) (fsRead : String → Option Bytes)
    (source : Option (String × Snapshot)) (T : Snapshot) (b : Bundle)
    (hok : bundleNew now createdBy repo source targetName T fsRead = .ok b) :
    ∃ cs fc,
      addsMods fsRead repo.config.compressionLevel
          (buildFileMap (sourceFilesOf source)) T.files ([], []) = .ok (cs, fc) ∧
      b.changes = cs ++ deletesGo (buildFileMap T.files) (sourceFilesOf source) ∧
      b.isInitial = source.isNone := by
  match source with
  | none =>
    rw [bundleNew] at hok
    simp only at hok
    rcases ham : addsMods fsRead repo.config.compressionLevel [] T.files ([], [])
        with e | ⟨cs, fc⟩ <;> rw [ham] at hok
    · exact absurd hok (by simp)
    · simp only [Except.ok.injEq] at hok
      refine ⟨cs, fc, ?_, ?_, ?_⟩
      · show addsMods fsRead repo.config.compressionLevel
          (buildFileMap []) T.files ([], []) = .ok (cs, fc)
        simpa [buildFileMap] using ham
      · rw [← hok]
        simp [sourceFilesOf, deletesGo]
      · rw [← hok]
  | some (sourceName, S) =>
    rw [bundleNew] at hok
    simp only at hok
    rw [computeChanges] at hok
    rcases ham : addsMods fsRead repo.config.compressionLevel
        (buildFileMap S.files) T.files ([], []) with e | ⟨cs, fc⟩ <;>
      rw [ham] at hok
    · exact absurd hok (by simp)
    · simp only [Except.ok.injEq] at hok
      exact ⟨cs, fc, ham, by rw [← hok]; simp [sourceFilesOf], by rw [← hok]⟩

/-- Claim C1: for every bundle created from a source snapshot S and a
target snapshot T, the set of change paths with type=add equals the
paths present in T and absent from S; the set with type=modify equals
the paths present in both whose hashes differ; the set with type=delete
equals the paths present in S and absent from T; unchanged common paths
are omitted from changes; and for an initial bundle (source absent),
the adds are exactly the paths of T with no modifies and no deletes. -/
theorem C1_bundle_change_sets
    (now : Nat) (createdBy targetName : String) (repo : RepoInfo)
    (fsRead : String → Option Bytes) (source : Option (String × Snapshot))
    (T : Snapshot) (b : Bundle)
    (hndS : ((sourceFilesOf source).map (fun f => f.path)).Nodup)
    (hndT : (T.files.map (fun f => f.path)).Nodup)
    (hok : bundleNew now createdBy repo source targetName T fsRead = .ok b) :
    (∀ p, (∃ c ∈ b.changes, c.type = "add" ∧ c.path = p) ↔
      ((∃ f ∈ T.files, f.path = p) ∧ ¬∃ f ∈ sourceFilesOf source, f.path = p)) ∧
    (∀ p, (∃ c ∈ b.changes, c.type = "modify" ∧ c.path = p) ↔
      (∃ fs ∈ sourceFilesOf source, ∃ ft ∈ T.files,
        fs.path = p ∧ ft.path = p ∧ fs.hash ≠ ft.hash)) ∧
    (∀ p, (∃ c ∈ b.changes, c.type = "delete" ∧ c.path = p) ↔
      ((∃ f ∈ sourceFilesOf source, f.path = p) ∧ ¬∃ f ∈ T.files, f.path = p)) ∧
    (∀ p fs ft, fs ∈ sourceFilesOf source → ft ∈ T.files → fs.path = p →
      ft.path = p → fs.hash = ft.hash → ¬∃ c ∈ b.changes, c.path = p) ∧
    (source = none → b.isInitial = true ∧
      (∀ c ∈ b.changes, c.type = "add") ∧
      (∀ p, (∃ c ∈ b.changes, c.path = p) ↔ ∃ f ∈ T.files, f.path = p)) := by
  obtain ⟨cs, fc, ham, hch, hini⟩ :=
    bundleNew_changes now createdBy targetName repo fsRead source T b hok
  set sm := buildFileMap (sourceFilesOf source) with hsm
  set tm := buildFileMap T.files with htm
  have htp : cs.map (fun c => (c.type, c.path)) = emittedTP sm T.files := by
    have h := addsMods_types_paths fsRead repo.config.compressionLevel sm
      T.files ([], []) (cs, fc) ham
    simpa using h
  have hmemcs : ∀ ty p, (∃ c ∈ cs, c.type = ty ∧ c.path = p) ↔
      (ty, p) ∈ emittedTP sm T.files := by
    intro ty p
    rw [← htp, List.mem_map]
    constructor
    · rintro ⟨c, hc, h1, h2⟩
      exact ⟨c, hc, by rw [h1, h2]⟩
    · rintro ⟨c, hc, heq⟩
      simp only [Prod.mk.injEq] at heq
      exact ⟨c, hc, heq.1, heq.2⟩
  have hAdd : ∀ p, (∃ c ∈ b.changes, c.type = "add" ∧ c.path = p) ↔
      ((∃ f ∈ T.files, f.path = p) ∧ ¬∃ f ∈ sourceFilesOf source, f.path = p) := by
    intro p
    rw [hch]
    constructor
    · rintro ⟨c, hc, hty, hp⟩
      rcases List.mem_append.mp hc with hcs | hdl
      · have h1 := (hmemcs c.type c.path).mp ⟨c, hcs, rfl, rfl⟩
        rw [hty, hp, emittedTP_mem] at h1
        obtain ⟨f, hf, hfp, hcase⟩ := h1
        rcases hcase with ⟨_, hnone⟩ | ⟨hbad, _⟩
        · refine ⟨⟨f, hf, hfp⟩, ?_⟩
          rw [hsm, buildFileMap_none] at hnone
          rintro ⟨g, hg, hgp⟩
          exact hnone g hg hgp
        · exact absurd hbad (by decide)
      · rw [deletesGo_mem] at hdl
        obtain ⟨f, _, _, hcf⟩ := hdl
        rw [hcf] at hty
        simp [mkChange] at hty
    · rintro ⟨⟨ft, hft, hftp⟩, hns⟩
      have hnone : mapLookup sm p = none := by
        rw [hsm, buildFileMap_none]
        intro f hf hfp
        exact hns ⟨f, hf, hfp⟩
      have h1 : ("add", p) ∈ emittedTP sm T.files :=
        (emittedTP_mem sm T.files "add" p).mpr ⟨ft, hft, hftp, Or.inl ⟨rfl, hnone⟩⟩
      obtain ⟨c, hc, hty, hp⟩ := (hmemcs "add" p).mpr h1
      exact ⟨c, List.mem_append_left _ hc, hty, hp⟩
  have hMod : ∀ p, (∃ c ∈ b.changes, c.type = "modify" ∧ c.path = p) ↔
      (∃ fs ∈ sourceFilesOf source, ∃ ft ∈ T.files,
        fs.path = p ∧ ft.path = p ∧ fs.hash ≠ ft.hash) := by
    intro p
    rw [hch]
    constructor
    · rintro ⟨c, hc, hty, hp⟩
      rcases List.mem_append.mp hc with hcs | hdl
      · have h1 := (hmemcs c.type c.path).mp ⟨c, hcs, rfl, rfl⟩
        rw [hty, hp, emittedTP_mem] at h1
        obtain ⟨f, hf, hfp, hcase⟩ := h1
        rcases hcase with ⟨hbad, _⟩ | ⟨_, sf, hsf, hneq⟩
        · exact absurd hbad (by decide)
        · rw [hsm] at hsf
          obtain ⟨hsfm, hsfp⟩ := buildFileMap_some hsf
          exact ⟨sf, hsfm, f, hf, hsfp, hfp, hneq⟩
      · rw [deletesGo_mem] at hdl
        obtain ⟨f, _, _, hcf⟩ := hdl
        rw [hcf] at hty
        simp [mkChange] at hty
    · rintro ⟨fs, hfs, ft, hft, hfsp, hftp, hneq⟩
      have hlk : mapLookup sm p = some fs := by
        rw [hsm, ← hfsp]
        exact buildFileMap_of_mem hndS hfs
      have h1 : ("modify", p) ∈ emittedTP sm T.files :=
        (emittedTP_mem sm T.files "modify" p).mpr
          ⟨ft, hft, hftp, Or.inr ⟨rfl, fs, hlk, hneq⟩⟩
      obtain ⟨c, hc, hty, hp⟩ := (hmemcs "modify" p).mpr h1
      exact ⟨c, List.mem_append_left _ hc, hty, hp⟩
  have hDel : ∀ p, (∃ c ∈ b.changes, c.type = "delete" ∧ c.path = p) ↔
      ((∃ f ∈ sourceFilesOf source, f.path = p) ∧ ¬∃ f ∈ T.files, f.path = p) := by
    intro p
    rw [hch]
    constructor
    · rintro ⟨c, hc, hty, hp⟩
      rcases List.mem_append.mp hc with hcs | hdl
      · have h1 := (hmemcs c.type c.path).mp ⟨c, hcs, rfl, rfl⟩
        rw [hty, hp, emittedTP_mem] at h1
        obtain ⟨f, hf, hfp, hcase⟩ := h1
        rcases hcase with ⟨hbad, _⟩ | ⟨hbad, _⟩ <;> exact absurd hbad (by decide)
      · rw [deletesGo_mem] at hdl
        obtain ⟨f, hfsrc, hnone, hcf⟩ := hdl
        have hp' : f.path = p := by
          rw [hcf] at hp
          simpa [mkChange] using hp
        refine ⟨⟨f, hfsrc, hp'⟩, ?_⟩
        rw [hp', htm, buildFileMap_none] at hnone
        rintro ⟨g, hg, hgp⟩
        exact hnone g hg hgp
    · rintro ⟨⟨fs, hfs, hfsp⟩, hnt⟩
      have hnone : mapLookup tm fs.path = none := by
        rw [htm, buildFileMap_none]
        intro g hg hgp
        exact hnt ⟨g, hg, by rw [hgp, hfsp]⟩
      refine ⟨mkChange fs "delete" "", List.mem_append_right _ ?_,
        by simp [mkChange], by simp [mkChange, hfsp]⟩
      rw [deletesGo_mem]
      exact ⟨fs, hfs, hnone, rfl⟩
  have hOmit : ∀ p fs ft, fs ∈ sourceFilesOf source → ft ∈ T.files →
      fs.path = p → ft.path = p → fs.hash = ft.hash →
      ¬∃ c ∈ b.changes, c.path = p := by
    intro p fs ft hfs hft hfsp hftp hheq
    rintro ⟨c, hc, hp⟩
    rw [hch] at hc
    rcases List.mem_append.mp hc with hcs | hdl
    · have h1 := (hmemcs c.type c.path).mp ⟨c, hcs, rfl, rfl⟩
      rw [hp, emittedTP_mem] at h1
      obtain ⟨f, hf, hfp, hcase⟩ := h1
      rcases hcase with ⟨_, hnone⟩ | ⟨_, sf, hsf, hneq⟩
      · rw [hsm, buildFileMap_none] at hnone
        exact hnone fs hfs hfsp
      · have hlkfs : mapLookup sm p = some fs := by
          rw [hsm, ← hfsp]
          exact buildFileMap_of_mem hndS hfs
        rw [hlkfs] at hsf
        injection hsf with hsf2
        subst hsf2
        have hfft : f = ft := List.inj_on_of_nodup_map hndT hf hft (by rw [hfp, hftp])
        rw [hfft] at hneq
        exact hneq hheq
    · rw [deletesGo_mem] at hdl
      obtain ⟨f, hfsrc, hnone, hcf⟩ := hdl
      have hp' : f.path = p := by
        rw [hcf] at hp
        simpa [mkChange] using hp
      rw [hp', htm, buildFileMap_none] at hnone
      exact hnone ft hft hftp
  have hInit : source = none → b.isInitial = true ∧
      (∀ c ∈ b.changes, c.type = "add") ∧
      (∀ p, (∃ c ∈ b.changes, c.path = p) ↔ ∃ f ∈ T.files, f.path = p) := by
    intro hsrc
    subst hsrc
    have hsmnil : sm = [] := hsm.trans rfl
    refine ⟨by rw [hini]; rfl, ?_, ?_⟩
    · intro c hc
      rw [hch] at hc
      rcases List.mem_append.mp hc with hcs | hdl
      · have h1 := (hmemcs c.type c.path).mp ⟨c, hcs, rfl, rfl⟩
        rw [emittedTP_mem] at h1
        obtain ⟨f, hf, hfp, hcase⟩ := h1
        rcases hcase with ⟨hty, _⟩ | ⟨_, sf, hsf, _⟩
        · exact hty
        · rw [hsmnil, mapLookup_nil] at hsf
          exact absurd hsf (by simp)
      · rw [deletesGo_mem] at hdl
        obtain ⟨f, hf, _, _⟩ := hdl
        simp [sourceFilesOf] at hf
    · intro p
      constructor
      · rintro ⟨c, hc, hp⟩
        rw [hch] at hc
        rcases List.mem_append.mp hc with hcs | hdl
        · have h1 := (hmemcs c.type c.path).mp ⟨c, hcs, rfl, rfl⟩
          rw [hp, emittedTP_mem] at h1
          obtain ⟨f, hf, hfp, _⟩ := h1
          exact ⟨f, hf, hfp⟩
        · rw [deletesGo_mem] at hdl
          obtain ⟨f, hf, _, _⟩ := hdl
          simp [sourceFilesOf] at hf
      · rintro ⟨f, hf, hfp⟩
        have hnone : mapLookup sm p = none := by rw [hsmnil]; exact mapLookup_nil p
        have h1 : ("add", p) ∈ emittedTP sm T.files :=
          (emittedTP_mem sm T.files "add" p).mpr ⟨f, hf, hfp, Or.inl ⟨rfl, hnone⟩⟩
        obtain ⟨c, hc, _, hp⟩ := (hmemcs "add" p).mpr h1
        exact ⟨c, by rw [hch]; exact List.mem_append_left _ hc, hp⟩
  exact ⟨hAdd, hMod, hDel, hOmit, hInit⟩

/-- Claim C2 (code bug): the claimed round trip `load(pack(B)) == B`
never succeeds.  `Save` hands `CreateZipArchive` the contents directory
as a trailing-slash path, whose branch only creates an empty plain file
entry named `contents` and never archives the payload blobs; extraction
therefore recreates `contents` as a regular file, and `Load` fails when
it tries to read it as a directory.  (Independently, `Verify` rejects
every initial bundle because its `source_snapshot` is empty.) -/
theorem C2_roundtrip_always_fails (b : Bundle) :
    (bundleSave b).bind bundleLoad = .error .readContentsDirFailed := by rfl

theorem verifyChanges_facts :
    ∀ (cs : List Change) (i : Nat), verifyChanges i cs = .ok () →
      ∀ c ∈ cs, c.path ≠ "" ∧
        (c.type = "add" ∨ c.type = "modify" ∨ c.type = "delete") ∧
        c.hash ≠ "" ∧ 0 ≤ c.size ∧ (c.isSymlink = true → c.symlinkTarget ≠ "") := by
  intro cs
  induction cs with
  | nil => intro i h c hc; cases hc
  | cons c0 rest ih =>
    intro i h c hc
    rw [verifyChanges] at h
    rcases hv : verifyChange i c0 with e | u <;> rw [hv] at h
    · exact absurd h (by simp)
    · rcases List.mem_cons.mp hc with hc0 | hcr
      · subst hc0
        rw [verifyChange] at hv
        split at hv
        · exact absurd hv (by simp)
        · split at hv
          · exact absurd hv (by simp)
          · split at hv
            · exact absurd hv (by simp)
            · split at hv
              · exact absurd hv (by simp)
              · split at hv
                · exact absurd hv (by simp)
                · split at hv
                  · exact absurd hv (by simp)
                  · rename_i h1 h2 h3 h4 h5 h6
                    push_neg at h3
                    refine ⟨h1, ?_, h4, by omega, ?_⟩
                    · by_cases ha : c.type = "add"
                      · exact Or.inl ha
                      · by_cases hm : c.type = "modify"
                        · exact Or.inr (Or.inl hm)
                        · exact Or.inr (Or.inr (h3 ha hm))
                    · intro hs
                      intro ht
                      exact h6 ⟨hs, ht⟩
      · exact ih (i + 1) h c hcr

theorem bundleVerify_facts (b : Bundle) (h : bundleVerify b = .ok ()) :
    b.id ≠ "" ∧ b.createdAt ≠ 0 ∧ b.createdBy ≠ "" ∧
    b.sourceSnapshot ≠ "" ∧ b.targetSnapshot ≠ "" ∧
    b.repository.name ≠ "" ∧ b.repository.dspDir ≠ "" ∧
    b.repository.dataDir ≠ "" ∧ b.repository.config.hashAlgorithm ≠ "" ∧
    1 ≤ b.repository.config.compressionLevel ∧
    b.repository.config.compressionLevel ≤ 9 ∧
    b.repository.trackingConfig ≠ none ∧ b.changes ≠ [] ∧
    (∀ c ∈ b.changes, c.path ≠ "" ∧
      (c.type = "add" ∨ c.type = "modify" ∨ c.type = "delete") ∧
      c.hash ≠ "" ∧ 0 ≤ c.size ∧ (c.isSymlink = true → c.symlinkTarget ≠ "")) := by
  rw [bundleVerify] at h
  by_cases h1 : b.id = ""
  · rw [if_pos h1] at h
    exact absurd h (by simp)
  rw [if_neg h1] at h
  by_cases h2 : b.createdAt = 0
  · rw [if_pos h2] at h
    exact absurd h (by simp)
  rw [if_neg h2] at h
  by_cases h3 : b.createdBy = ""
  · rw [if_pos h3] at h
    exact absurd h (by simp)
  rw [if_neg h3] at h
  by_cases h4 : b.sourceSnapshot = ""
  · rw [if_pos h4] at h
    exact absurd h (by simp)
  rw [if_neg h4] at h
  by_cases h5 : b.targetSnapshot = ""
  · rw [if_pos h5] at h
    exact absurd h (by simp)
  rw [if_neg h5] at h
  by_cases h6 : b.repository.name = ""
  · rw [if_pos h6] at h
    exact absurd h (by simp)
  rw [if_neg h6] at h
  by_cases h7 : b.repository.dspDir = ""
  · rw [if_pos h7] at h
    exact absurd h (by simp)
  rw [if_neg h7] at h
  by_cases h8 : b.repository.dataDir = ""
  · rw [if_pos h8] at h
    exact absurd h (by simp)
  rw [if_neg h8] at h
  by_cases h9 : b.repository.config.hashAlgorithm = ""
  · rw [if_pos h9] at h
    exact absurd h (by simp)
  rw [if_neg h9] at h
  by_cases h10 : b.repository.config.compressionLevel < 1 ∨
      9 < b.repository.config.compressionLevel
  · rw [if_pos h10] at h
    exact absurd h (by simp)
  rw [if_neg h10] at h
  by_cases h11 : b.repository.trackingConfig = none
  · rw [if_pos h11] at h
    exact absurd h (by simp)
  rw [if_neg h11] at h
  by_cases h12 : b.changes = []
  · rw [if_pos h12] at h
    exact absurd h (by simp)
  rw [if_neg h12] at h
  push_neg at h10
  exact ⟨h1, h2, h3, h4, h5, h6, h7, h8, h9, by omega, by omega, h11, h12,
    verifyChanges_facts b.changes 0 h⟩

/-- A successful `Load` always ends by running `Verify` on the loaded
bundle. -/
theorem bundleLoad_verify (archive : List ZipEntry) (b : Bundle)
    (h : bundleLoad archive = .ok b) : bundleVerify b = .ok () := by
  rw [bundleLoad] at h
  split at h
  · exact absurd h (by simp)
  · split at h
    · split at h
      · exact absurd h (by simp)
      · split at h
        · exact absurd h (by simp)
        · split at h
          · exact absurd h (by simp)
          · rename_i hv
            simp only [Except.ok.injEq] at h
            rw [← h]
            exact hv
    · exact absurd h (by simp)
    · exact absurd h (by simp)

/-- Claim C3 counterexample: the handcrafted archive stores, under the
name `hX`, a blob whose digest is not `hX`; `Load` accepts it anyway
and binds the blob to the change's path — the mismatch is not
rejected. -/
theorem C3_counterexample :
    bundleLoad c3archive =
      .ok { c3meta with fileContents := [("/D/a.txt", [9, 9])] } ∧
    HashBytes [9, 9] ≠ "hX" := by
  constructor
  · rfl
  · decide

/-- Claim C3 (amended): loading succeeds only if `Verify` passes, and
`Verify` enforces presence of all scalar fields,
`compression_level ∈ [1,9]`, and per-change field validity — but it
performs no payload check at all: existence of `contents/<content_hash>`
entries is not required, their digests are never compared to
`content_hash`, and delete changes may even carry payloads.  (The
payload clauses of the original claim are refuted by
`C3_counterexample`.) -/
theorem C3_load_implies_verify (archive : List ZipEntry) (b : Bundle)
    (h : bundleLoad archive = .ok b) :
    bundleVerify b = .ok () ∧
    1 ≤ b.repository.config.compressionLevel ∧
    b.repository.config.compressionLevel ≤ 9 ∧
    b.id ≠ "" ∧ b.createdAt ≠ 0 ∧ b.createdBy ≠ "" ∧
    b.sourceSnapshot ≠ "" ∧ b.targetSnapshot ≠ "" ∧
    b.repository.trackingConfig ≠ none ∧ b.changes ≠ [] ∧
    (∀ c ∈ b.changes, c.path ≠ "" ∧
      (c.type = "add" ∨ c.type = "modify" ∨ c.type = "delete") ∧
      c.hash ≠ "" ∧ 0 ≤ c.size ∧ (c.isSymlink = true → c.symlinkTarget ≠ "")) := by
  have hv := bundleLoad_verify archive b h
  obtain ⟨h1, h2, h3, h4, h5, _, _, _, _, h10, h11, h12, h13, h14⟩ :=
    bundleVerify_facts b hv
  exact ⟨hv, h10, h11, h1, h2, h3, h4, h5, h12, h13, h14⟩

/-- Witness for `C3_load_implies_verify` at the handcrafted archive. -/
theorem C3_load_implies_verify_witness :
    bundleVerify { c3meta with fileContents := [("/D/a.txt", [9, 9])] } = .ok () ∧
    1 ≤ ({ c3meta with fileContents := [("/D/a.txt", [9, 9])] } :
      Bundle).repository.config.compressionLevel := by
  have h := C3_load_implies_verify c3archive
    { c3meta with fileContents := [("/D/a.txt", [9, 9])] } (by rfl)
  exact ⟨h.1, h.2.1⟩

/-- Claim C6 (code bug): on first contact — host entry with no stored
`cert_info` — the download certificate check accepts a certificate
whose fingerprint (`"bbb"`) differs from `ExportInfo.cert_fingerprint`
(`"aaa"`), and pins nothing: `VerifyCertificate` returns nil when no
certificate is stored, so the export-info comparison in `downloadBundle`
is dead code.  The pinned-fingerprint and rollback rejections do work,
shown by the second and third conjuncts. -/
theorem C6_first_contact_unchecked :
    (downloadCertCheck ⟨"h", "", true, none⟩ "aaa" "bbb" 0 100 50 =
      .ok ⟨"h", "", true, none⟩) ∧
    (downloadCertCheck ⟨"h", "", true, some ⟨"aaa", 0, 200, 0⟩⟩ "aaa" "bbb" 0 100 50 =
      .error .fingerprintMismatch) ∧
    (downloadCertCheck ⟨"h", "", true, some ⟨"bbb", 0, 200, 0⟩⟩ "aaa" "bbb" 0 100 50 =
      .error .rollback) := by
  exact ⟨rfl, rfl, rfl⟩

/-- Claim C5 (code bug): the encrypted download never produces a
ciphertext at all, let alone one decryptable with the caller's own
`password ∥ token`.  With a second token still pooled, the recipient
loop dereferences the missing map entry for the pooled token (a nil
pointer panic in Go); with no token pooled, the loop runs zero times
and the handler fails with "No valid tokens available".  In both runs
the caller's own token was already marked used by `verifyToken` before
the loop, so even reaching the loop it would be skipped. -/
theorem C5_encrypted_download_never_built :
    (encryptedDownloadPayload
      (serverRun (initServer "p" ["t1", "t2"] 2)
        [.status "1.1.1.1" "p" 0, .download "t1" "1.1.1.1" "p" 10]).1.auth =
      .error .nilPointerPanic) ∧
    (encryptedDownloadPayload
      (serverRun (initServer "p" ["t1"] 1)
        [.status "1.1.1.1" "p" 0, .download "t1" "1.1.1.1" "p" 10]).1.auth =
      .error .noValidTokens) := by
  exact ⟨rfl, rfl⟩

/-! ### Map lemmas for the token-linearity proof -/

theorem mapLookup_some_mem {α : Type} {m : List (String × α)} {k : String} {v : α}
    (h : mapLookup m k = some v) : k ∈ m.map (fun kv => kv.1) := by
  induction m with
  | nil => simp [mapLookup] at h
  | cons kv rest ih =>
    rw [mapLookup] at h
    split at h
    · rename_i hk
      simp [← hk]
    · simp [ih h]

theorem mapLookup_none_iff {α : Type} {m : List (String × α)} {k : String} :
    mapLookup m k = none ↔ k ∉ m.map (fun kv => kv.1) := by
  induction m with
  | nil => simp [mapLookup]
  | cons kv rest ih =>
    rw [mapLookup]
    by_cases hk : kv.1 = k
    · rw [if_pos hk]
      simp [hk]
    · rw [if_neg hk]
      simp only [List.map_cons, List.mem_cons, ih]
      constructor
      · intro hn
        rintro (he | hm)
        · exact hk he.symm
        · exact hn hm
      · intro hn hm
        exact hn (Or.inr hm)

theorem mapInsert_keys_of_some {α : Type} {m : List (String × α)} {k : String}
    (v : α) (h : (mapLookup m k).isSome) :
    (mapInsert m k v).map (fun kv => kv.1) = m.map (fun kv => kv.1) := by
  induction m with
  | nil => simp [mapLookup] at h
  | cons kv rest ih =>
    rw [mapInsert]
    by_cases hk : kv.1 = k
    · rw [if_pos hk]
      simp [hk]
    · rw [if_neg hk]
      rw [mapLookup, if_neg hk] at h
      simp [ih h]

theorem mapInsert_keys_of_none {α : Type} {m : List (String × α)} {k : String}
    (v : α) (h : mapLookup m k = none) :
    (mapInsert m k v).map (fun kv => kv.1) = m.map (fun kv => kv.1) ++ [k] := by
  induction m with
  | nil => simp [mapInsert]
  | cons kv rest ih =>
    rw [mapInsert]
    by_cases hk : kv.1 = k
    · rw [mapLookup, if_pos hk] at h
      exact absurd h (by simp)
    · rw [if_neg hk]
      rw [mapLookup, if_neg hk] at h
      simp [ih h]

theorem mapInsert_length_of_some {α : Type} {m : List (String × α)} {k : String}
    (v : α) (h : (mapLookup m k).isSome) :
    (mapInsert m k v).length = m.length := by
  have := mapInsert_keys_of_some (m := m) (k := k) v h
  have h1 : ((mapInsert m k v).map (fun kv => kv.1)).length =
      (m.map (fun kv => kv.1)).length := by rw [this]
  simpa using h1

theorem mapInsert_length_of_none {α : Type} {m : List (String × α)} {k : String}
    (v : α) (h : mapLookup m k = none) :
    (mapInsert m k v).length = m.length + 1 := by
  have := mapInsert_keys_of_none (m := m) (k := k) v h
  have h1 : ((mapInsert m k v).map (fun kv => kv.1)).length =
      (m.map (fun kv => kv.1)).length + 1 := by rw [this]; simp
  simpa using h1

/-! ### Token-state invariant preservation -/

theorem assignToken_spec (a : ExportAuth) (ip : String) (now : Nat) (maxD : Nat)
    (hinv : AuthInv a maxD) :
    AuthInv (assignToken a ip now).1 maxD ∧
    (∀ t, usedIn a t → usedIn (assignToken a ip now).1 t) := by
  obtain ⟨hkeys, hpool, hfresh, hlen⟩ := hinv
  rw [assignToken]
  split
  · exact ⟨⟨hkeys, hpool, hfresh, hlen⟩, fun t ht => ht⟩
  · split
    · exact ⟨⟨hkeys, hpool, hfresh, hlen⟩, fun t ht => ht⟩
    · rename_i t0 rest hpoolEq
      have ht0 : mapLookup a.tokens t0 = none := hfresh t0 (by rw [hpoolEq]; simp)
      have ht0nk : t0 ∉ a.tokens.map (fun kv => kv.1) := mapLookup_none_iff.mp ht0
      have hkeys' := mapInsert_keys_of_none
        (m := a.tokens) (k := t0) ⟨t0, now + tokenTTL, false, ip, now⟩ ht0
      have hpool' : (t0 :: rest).Nodup := hpoolEq ▸ hpool
      refine ⟨⟨?_, ?_, ?_, ?_⟩, ?_⟩
      · rw [hkeys']
        rw [List.nodup_append]
        refine ⟨hkeys, by simp, fun x hx hx0 => ?_⟩
        have hxt : x = t0 := by simpa using hx0
        exact ht0nk (hxt ▸ hx)
      · exact (List.nodup_cons.mp hpool').2
      · intro u hu
        dsimp only
        rw [mapLookup_mapInsert]
        have hne : t0 ≠ u := by
          intro he
          exact (List.nodup_cons.mp hpool').1 (he ▸ hu)
        rw [if_neg hne]
        exact hfresh u (by rw [hpoolEq]; simp [hu])
      · dsimp only
        have hl := mapInsert_length_of_none
          (m := a.tokens) (k := t0) ⟨t0, now + tokenTTL, false, ip, now⟩ ht0
        rw [hl]
        have : a.tokens.length + (t0 :: rest).length ≤ maxD := hpoolEq ▸ hlen
        simp only [List.length_cons] at this
        omega
      · intro t ht
        obtain ⟨i, hi, hiu⟩ := ht
        refine ⟨i, ?_, hiu⟩
        dsimp only
        rw [mapLookup_mapInsert]
        have : ¬t0 = t := by
          intro he
          rw [← he, ht0] at hi
          cases hi
        rw [if_neg this]
        exact hi

theorem verifyToken_ok_spec (a : ExportAuth) (tok ip : String) (now : Nat)
    (maxD : Nat) (a' : ExportAuth) (info : TokenInfo)
    (hinv : AuthInv a maxD)
    (h : verifyToken a tok ip now = .ok (a', info)) :
    AuthInv a' maxD ∧
    (∀ t, usedIn a t → usedIn a' t) ∧
    ¬usedIn a tok ∧ usedIn a' tok ∧
    info.clientIP = ip ∧ ¬info.expiry < now := by
  obtain ⟨hkeys, hpool, hfresh, hlen⟩ := hinv
  rw [verifyToken] at h
  rcases hlk : mapLookup a.tokens tok with _ | info0 <;> rw [hlk] at h
  · exact absurd h (by simp)
  · split at h
    · exact absurd h (by simp)
    · split at h
      · exact absurd h (by simp)
      · split at h
        · exact absurd h (by simp)
        · split at h
          · exact absurd h (by simp)
          · rename_i heq1 hused hexp hip
            simp only [Except.ok.injEq, Prod.mk.injEq] at h
            obtain ⟨ha', hinfo⟩ := h
            subst hinfo
            injection heq1 with he0
            subst he0
            have hsome : (mapLookup a.tokens tok).isSome := by rw [hlk]; rfl
            have hkeys' := mapInsert_keys_of_some
              (m := a.tokens) (k := tok) { info0 with used := true } hsome
            refine ⟨⟨?_, ?_, ?_, ?_⟩, ?_, ?_, ?_, ?_, ?_⟩
            · rw [← ha']
              dsimp only
              rw [hkeys']
              exact hkeys
            · rw [← ha']
              exact hpool
            · intro u hu
              rw [← ha'] at hu ⊢
              dsimp only at hu ⊢
              rw [mapLookup_mapInsert]
              have hne : ¬tok = u := by
                intro he
                have := hfresh u hu
                rw [← he, hlk] at this
                cases this
              rw [if_neg hne]
              exact hfresh u hu
            · rw [← ha']
              dsimp only
              rw [mapInsert_length_of_some _ hsome]
              exact hlen
            · intro t ht
              obtain ⟨i, hi, hiu⟩ := ht
              by_cases he : tok = t
              · rw [← he, hlk] at hi
                cases hi
                simp only [Bool.not_eq_true] at hused
                rw [hused] at hiu
                cases hiu
              · refine ⟨i, ?_, hiu⟩
                rw [← ha']
                dsimp only
                rw [mapLookup_mapInsert, if_neg he]
                exact hi
            · rintro ⟨i, hi, hiu⟩
              rw [hlk] at hi
              cases hi
              simp only [Bool.not_eq_true] at hused
              rw [hused] at hiu
              cases hiu
            · refine ⟨{ info0 with used := true }, ?_, rfl⟩
              rw [← ha']
              dsimp only
              rw [mapLookup_mapInsert, if_pos rfl]
            · simpa using hip
            · exact hexp

theorem markUsed_spec (a : ExportAuth) (tok : String) (ti : TokenInfo) (maxD : Nat)
    (hinv : AuthInv a maxD) (hti : mapLookup a.tokens tok = some ti) :
    AuthInv { a with tokens := mapInsert a.tokens tok { ti with used := true } } maxD ∧
    (∀ t, usedIn a t →
      usedIn { a with tokens := mapInsert a.tokens tok { ti with used := true } } t) ∧
    usedIn { a with tokens := mapInsert a.tokens tok { ti with used := true } } tok := by
  obtain ⟨hkeys, hpool, hfresh, hlen⟩ := hinv
  have hsome : (mapLookup a.tokens tok).isSome := by rw [hti]; rfl
  have hkeys' := mapInsert_keys_of_some
    (m := a.tokens) (k := tok) { ti with used := true } hsome
  refine ⟨⟨?_, hpool, ?_, ?_⟩, ?_, ?_⟩
  · dsimp only
    rw [hkeys']
    exact hkeys
  · intro u hu
    dsimp only
    rw [mapLookup_mapInsert]
    have hne : ¬tok = u := by
      intro he
      have := hfresh u hu
      rw [← he, hti] at this
      cases this
    rw [if_neg hne]
    exact hfresh u hu
  · dsimp only
    rw [mapInsert_length_of_some _ hsome]
    exact hlen
  · intro t ht
    obtain ⟨i, hi, hiu⟩ := ht
    by_cases he : tok = t
    · refine ⟨{ ti with used := true }, ?_, rfl⟩
      dsimp only
      rw [← he, mapLookup_mapInsert, if_pos rfl]
    · refine ⟨i, ?_, hiu⟩
      dsimp only
      rw [mapLookup_mapInsert, if_neg he]
      exact hi
  · refine ⟨{ ti with used := true }, ?_, rfl⟩
    dsimp only
    rw [mapLookup_mapInsert, if_pos rfl]

theorem serverStep_spec (s : ExportServer) (e : Event)
    (hinv : AuthInv s.auth s.maxDownloads) :
    AuthInv (serverStep s e).1.auth s.maxDownloads ∧
    (serverStep s e).1.maxDownloads = s.maxDownloads ∧
    (∀ t, usedIn s.auth t → usedIn (serverStep s e).1.auth t) ∧
    (∀ c ∈ (serverStep s e).2,
      ¬usedIn s.auth c.token ∧ usedIn (serverStep s e).1.auth c.token ∧
      c.assignedIP = c.clientIP ∧ ¬c.expiry < c.time) ∧
    (serverStep s e).2.length ≤ 1 := by
  cases e with
  | status ip pw now =>
    simp only [serverStep, handleStatus]
    by_cases hpw : pw ≠ s.auth.password
    · rw [if_pos hpw]
      exact ⟨hinv, rfl, fun t ht => ht, by simp, by simp⟩
    · rw [if_neg hpw]
      obtain ⟨h1, h2⟩ := assignToken_spec s.auth ip now s.maxDownloads hinv
      exact ⟨h1, rfl, h2, by simp, by simp⟩
  | download tok ip pw now =>
    simp only [serverStep, handleDownload]
    by_cases hpw : pw ≠ s.auth.password
    · rw [if_pos hpw]
      exact ⟨hinv, rfl, fun t ht => ht, by simp, by simp⟩
    · rw [if_neg hpw]
      rcases hv : verifyToken s.auth tok ip now with e' | r
      · exact ⟨hinv, rfl, fun t ht => ht, by simp, by simp⟩
      · obtain ⟨a', info⟩ := r
        simp only [hv]
        obtain ⟨hinv', hmono, hnot, hused, hip2, hexp2⟩ :=
          verifyToken_ok_spec s.auth tok ip now s.maxDownloads a' info hinv hv
        by_cases hlim : 0 < s.maxDownloads ∧ s.maxDownloads ≤ s.downloads
        · rw [if_pos hlim]
          refine ⟨hinv', rfl, hmono, ?_, by simp⟩
          intro c hc
          simp only [List.mem_singleton] at hc
          subst hc
          exact ⟨hnot, hused, hip2, hexp2⟩
        · rw [if_neg hlim]
          obtain ⟨ti, hti, htiu⟩ := hused
          rw [hti]
          obtain ⟨minv, mmono, mused⟩ :=
            markUsed_spec a' tok ti s.maxDownloads hinv' hti
          by_cases hlim2 : 0 < s.maxDownloads ∧ s.maxDownloads ≤ s.downloads + 1
          · rw [if_pos hlim2]
            refine ⟨minv, rfl, fun t ht => mmono t (hmono t ht), ?_, by simp⟩
            intro c hc
            simp only [List.mem_singleton] at hc
            subst hc
            exact ⟨hnot, mused, hip2, hexp2⟩
          · rw [if_neg hlim2]
            refine ⟨minv, rfl, fun t ht => mmono t (hmono t ht), ?_, by simp⟩
            intro c hc
            simp only [List.mem_singleton] at hc
            subst hc
            exact ⟨hnot, mused, hip2, hexp2⟩

theorem serverRun_spec (events : List Event) :
    ∀ (s : ExportServer), AuthInv s.auth s.maxDownloads →
    AuthInv (serverRun s events).1.auth s.maxDownloads ∧
    (serverRun s events).1.maxDownloads = s.maxDownloads ∧
    (∀ t, usedIn s.auth t → usedIn (serverRun s events).1.auth t) ∧
    (∀ c ∈ (serverRun s events).2,
      ¬usedIn s.auth c.token ∧ usedIn (serverRun s events).1.auth c.token ∧
      c.assignedIP = c.clientIP ∧ ¬c.expiry < c.time) ∧
    ((serverRun s events).2.map (fun c => c.token)).Nodup := by
  induction events with
  | nil =>
    intro s hinv
    exact ⟨hinv, rfl, fun t ht => ht, by simp [serverRun], by simp [serverRun]⟩
  | cons ev rest ih =>
    intro s hinv
    obtain ⟨sinv, smax, smono, scons, slen⟩ := serverStep_spec s ev hinv
    have ih' := ih (serverStep s ev).1 (by rw [smax]; exact sinv)
    rw [smax] at ih'
    obtain ⟨rinv, rmax, rmono, rcons, rnodup⟩ := ih'
    rw [serverRun]
    dsimp only
    refine ⟨rinv, rmax, fun t ht => rmono t (smono t ht), ?_, ?_⟩
    · intro c hc
      rcases List.mem_append.mp hc with h1 | h2
      · obtain ⟨hna, hu, hf1, hf2⟩ := scons c h1
        exact ⟨hna, rmono _ hu, hf1, hf2⟩
      · obtain ⟨hna, hu, hf1, hf2⟩ := rcons c h2
        exact ⟨fun habs => hna (smono _ habs), hu, hf1, hf2⟩
    · rw [List.map_append, List.nodup_append]
      refine ⟨?_, rnodup, ?_⟩
      · have hsmall : ∀ (l : List Consumption), l.length ≤ 1 →
            (l.map (fun c => c.token)).Nodup := by
          intro l hl
          match l with
          | [] => simp
          | [c] => simp
          | c1 :: c2 :: _ => simp at hl
        exact hsmall _ slen
      · intro x hx1 hx2
        obtain ⟨c1, hc1, he1⟩ := List.mem_map.mp hx1
        obtain ⟨c2, hc2, he2⟩ := List.mem_map.mp hx2
        obtain ⟨_, hu1, _, _⟩ := scons c1 hc1
        obtain ⟨hn2, _, _, _⟩ := rcons c2 hc2
        apply hn2
        have : c2.token = c1.token := by rw [he2, ← he1]
        rw [this]
        exact hu1

/-- Claim C4: across the export server's lifetime, the number of
consumed one-time tokens never exceeds the configured maximum number of
downloads, no token is consumed twice, and every consumed token was, at
the moment of consumption, assigned to the client IP that consumed it
and not past its expiry.  (`pool` is the pool `generateTokens` filled
with `maxDownloads` random tokens; their distinctness is the
hypothesis.) -/
theorem C4_token_linearity (password : String) (pool : List String)
    (maxDl : Nat) (events : List Event)
    (hplen : pool.length = maxDl) (hnodup : pool.Nodup) :
    (serverRun (initServer password pool maxDl) events).2.length ≤ maxDl ∧
    ((serverRun (initServer password pool maxDl) events).2.map
      (fun c => c.token)).Nodup ∧
    ∀ c ∈ (serverRun (initServer password pool maxDl) events).2,
      c.assignedIP = c.clientIP ∧ ¬c.expiry < c.time := by
  have hinv : AuthInv (initServer password pool maxDl).auth
      (initServer password pool maxDl).maxDownloads := by
    refine ⟨by simp [initServer], hnodup, ?_, ?_⟩
    · intro t ht
      rfl
    · simp [initServer, hplen]
  obtain ⟨rinv, rmax, rmono, rcons, rnodup⟩ :=
    serverRun_spec events (initServer password pool maxDl) hinv
  refine ⟨?_, rnodup, fun c hc => ⟨(rcons c hc).2.2.1, (rcons c hc).2.2.2⟩⟩
  have hsub : ∀ x ∈ (serverRun (initServer password pool maxDl) events).2.map
        (fun c => c.token),
      x ∈ (serverRun (initServer password pool maxDl) events).1.auth.tokens.map
        (fun kv => kv.1) := by
    intro x hx
    obtain ⟨c, hc, he⟩ := List.mem_map.mp hx
    obtain ⟨_, hu, _, _⟩ := rcons c hc
    obtain ⟨i, hi, _⟩ := hu
    rw [← he]
    exact mapLookup_some_mem hi
  have hsp := List.subperm_of_subset rnodup hsub
  have hle := hsp.length_le
  simp only [List.length_map] at hle
  obtain ⟨_, _, _, hlen2⟩ := rinv
  have hmax : (initServer password pool maxDl).maxDownloads = maxDl := rfl
  omega

theorem C4_token_linearity_witness :
    (["t1", "t2"] : List String).length = 2 ∧
    (["t1", "t2"] : List String).Nodup ∧
    ((serverRun (initServer "pw" ["t1", "t2"] 2)
        [Event.status "1.1.1.1" "pw" 10,
         Event.download "t1" "1.1.1.1" "pw" 20]).2.length ≤ 2 ∧
      ((serverRun (initServer "pw" ["t1", "t2"] 2)
        [Event.status "1.1.1.1" "pw" 10,
         Event.download "t1" "1.1.1.1" "pw" 20]).2.map
          (fun c => c.token)).Nodup ∧
      ∀ c ∈ (serverRun (initServer "pw" ["t1", "t2"] 2)
        [Event.status "1.1.1.1" "pw" 10,
         Event.download "t1" "1.1.1.1" "pw" 20]).2,
        c.assignedIP = c.clientIP ∧ ¬c.expiry < c.time) :=
  ⟨rfl, by decide,
    C4_token_linearity "pw" ["t1", "t2"] 2
      [Event.status "1.1.1.1" "pw" 10, Event.download "t1" "1.1.1.1" "pw" 20]
      rfl (by decide)⟩

theorem C1_bundle_change_sets_witness :
    ((sourceFilesOf (some ("S", c1S))).map (fun f => f.path)).Nodup ∧
    (c1T.files.map (fun f => f.path)).Nodup ∧
    bundleNew 7 "me" c1repo (some ("S", c1S)) "T" c1T c1fs = .ok c1bundle ∧
    ((∀ p, (∃ c ∈ c1bundle.changes, c.type = "add" ∧ c.path = p) ↔
      ((∃ f ∈ c1T.files, f.path = p) ∧
        ¬∃ f ∈ sourceFilesOf (some ("S", c1S)), f.path = p)) ∧
     (∀ p, (∃ c ∈ c1bundle.changes, c.type = "modify" ∧ c.path = p) ↔
      (∃ fs ∈ sourceFilesOf (some ("S", c1S)), ∃ ft ∈ c1T.files,
        fs.path = p ∧ ft.path = p ∧ fs.hash ≠ ft.hash)) ∧
     (∀ p, (∃ c ∈ c1bundle.changes, c.type = "delete" ∧ c.path = p) ↔
      ((∃ f ∈ sourceFilesOf (some ("S", c1S)), f.path = p) ∧
        ¬∃ f ∈ c1T.files, f.path = p)) ∧
     (∀ p fs ft, fs ∈ sourceFilesOf (some ("S", c1S)) → ft ∈ c1T.files →
        fs.path = p → ft.path = p → fs.hash = ft.hash →
        ¬∃ c ∈ c1bundle.changes, c.path = p) ∧
     (some (("S" : String), c1S) = none → c1bundle.isInitial = true ∧
      (∀ c ∈ c1bundle.changes, c.type = "add") ∧
      (∀ p, (∃ c ∈ c1bundle.changes, c.path = p) ↔
        ∃ f ∈ c1T.files, f.path = p))) :=
  ⟨by decide, by decide, by rfl,
    C1_bundle_change_sets 7 "me" "T" c1repo c1fs (some ("S", c1S)) c1T
      c1bundle (by decide) (by decide) (by rfl)⟩

/-- Claim C7, counterexample: the snapshot engine hashes a symlink by
FOLLOWING the link — `HashFile` on the symlink `l` (target `"f"`)
digests the referent's content `[104, 105]`, which differs from the
digest of the target string `"f"` the spec prescribes. -/
theorem C7_counterexample :
    lookupEntry c7dir "l" = some (FNode.symlink "f" 2) ∧
    HashFile c7dir "l" "sha256" = .ok "sha256:[104, 105]" ∧
    openRead c7dir "l" = some [104, 105] ∧
    digestHex "sha256" (strBytes "f") = .ok "sha256:[102]" ∧
    ("sha256:[104, 105]" : String) ≠ "sha256:[102]" :=
  ⟨rfl, rfl, rfl, rfl, by decide⟩

/-- Claim C7 (amended): a walked symlink entry is recorded with
`is_symlink=true`, `symlink_target` as read from the filesystem and the
lstat size of the target string, but its `hash` is the digest of the
CONTENT the link resolves to (`openRead` follows the link), not of the
target string. -/
theorem C7_symlink_record (algorithm : String) (excludes : List String)
    (dirAll : List (String × FNode)) (absDir relDir name t : String)
    (m : Nat) (rest : List (String × FNode)) (snap : Snapshot)
    (content : Bytes) (h : String)
    (hnoexcl : matchAnyGo excludes (relDir ++ name) = .ok false)
    (hopen : openRead dirAll name = some content)
    (hdig : digestHex algorithm content = .ok h) :
    walkEntries algorithm excludes dirAll absDir relDir
      ((name, FNode.symlink t m) :: rest) snap =
    walkEntries algorithm excludes dirAll absDir relDir rest
      (addFile snap ⟨absDir ++ name, h, ((strBytes t).length : Int), m, true, t⟩) := by
  simp only [walkEntries, hnoexcl, HashFile, hopen, hdig, nodeSize]

theorem C7_symlink_record_witness :
    matchAnyGo [] ("" ++ "l") = .ok false ∧
    openRead c7dir "l" = some [104, 105] ∧
    digestHex "sha256" [104, 105] = .ok "sha256:[104, 105]" ∧
    walkEntries "sha256" [] c7dir "/D/" "" [("l", FNode.symlink "f" 2)]
      ⟨"0", 0, [], "u", "", ⟨0, 0, 0, 0, 0, 0⟩⟩ =
    walkEntries "sha256" [] c7dir "/D/" "" []
      (addFile ⟨"0", 0, [], "u", "", ⟨0, 0, 0, 0, 0, 0⟩⟩
        ⟨"/D/" ++ "l", "sha256:[104, 105]", ((strBytes "f").length : Int), 2,
          true, "f"⟩) :=
  ⟨rfl, rfl, rfl,
    C7_symlink_record "sha256" [] c7dir "/D/" "" "l" "f" 2 []
      ⟨"0", 0, [], "u", "", ⟨0, 0, 0, 0, 0, 0⟩⟩ [104, 105] "sha256:[104, 105]"
      rfl rfl rfl⟩

theorem walkEntries_paths (n : Nat) : ∀ (todo : List (String × FNode)),
    sizeOf todo ≤ n →
    ∀ (algorithm : String) (excludes : List String)
      (dirAll : List (String × FNode)) (absDir relDir : String)
      (snap snap' : Snapshot),
    walkEntries algorithm excludes dirAll absDir relDir todo snap = .ok snap' →
    snap'.files.map (fun f => f.path) =
      snap.files.map (fun f => f.path) ++
        specIncludedPaths excludes absDir relDir todo := by
  induction n with
  | zero =>
    intro todo hle
    cases todo <;> simp_arith at hle
  | succ n ih =>
    intro todo hle algorithm excludes dirAll absDir relDir snap snap' hok
    cases todo with
    | nil =>
      simp only [walkEntries] at hok
      cases hok
      rw [specIncludedPaths]
      simp
    | cons e rest =>
      obtain ⟨name, node⟩ := e
      have hrest : sizeOf rest ≤ n := by
        simp only [List.cons.sizeOf_spec, Prod.mk.sizeOf_spec] at hle
        omega
      cases node with
      | ioErr =>
        simp only [walkEntries] at hok
        exact absurd hok (by simp)
      | file c mt =>
        simp only [walkEntries] at hok
        rcases hm : matchAnyGo excludes (relDir ++ name) with e' | b
        · simp only [hm] at hok
          exact absurd hok (by simp)
        · cases b with
          | true =>
            simp only [hm] at hok
            have := ih rest hrest algorithm excludes dirAll absDir relDir
              _ _ hok
            rw [this]
            simp only [specIncludedPaths, hm]
            simp
          | false =>
            simp only [hm] at hok
            rcases hh : HashFile dirAll name algorithm with e' | h <;>
              simp only [hh] at hok
            · exact absurd hok (by simp)
            · have := ih rest hrest algorithm excludes dirAll absDir relDir
                _ _ hok
              rw [this]
              simp only [specIncludedPaths, hm]
              simp [addFile]
      | symlink t mt =>
        simp only [walkEntries] at hok
        rcases hm : matchAnyGo excludes (relDir ++ name) with e' | b
        · simp only [hm] at hok
          exact absurd hok (by simp)
        · cases b with
          | true =>
            simp only [hm] at hok
            have := ih rest hrest algorithm excludes dirAll absDir relDir
              _ _ hok
            rw [this]
            simp only [specIncludedPaths, hm]
            simp
          | false =>
            simp only [hm] at hok
            rcases hh : HashFile dirAll name algorithm with e' | h <;>
              simp only [hh] at hok
            · exact absurd hok (by simp)
            · have := ih rest hrest algorithm excludes dirAll absDir relDir
                _ _ hok
              rw [this]
              simp only [specIncludedPaths, hm]
              simp [addFile]
      | dir entries =>
        have hent : sizeOf entries ≤ n := by
          simp only [List.cons.sizeOf_spec, Prod.mk.sizeOf_spec,
            FNode.dir.sizeOf_spec] at hle
          omega
        simp only [walkEntries] at hok
        rcases hm : matchAnyGo excludes (relDir ++ name) with e' | b
        · simp only [hm] at hok
          exact absurd hok (by simp)
        · cases b with
          | true =>
            simp only [hm] at hok
            have := ih rest hrest algorithm excludes dirAll absDir relDir
              _ _ hok
            rw [this]
            simp only [specIncludedPaths, hm]
            simp
          | false =>
            simp only [hm] at hok
            rcases hw : walkEntries algorithm excludes entries
                (absDir ++ name ++ "/") (relDir ++ name ++ "/") entries snap
                with e' | snap1 <;> simp only [hw] at hok
            · exact absurd hok (by simp)
            · have h1 := ih entries hent algorithm excludes entries
                (absDir ++ name ++ "/") (relDir ++ name ++ "/") _ _ hw
              have h2 := ih rest hrest algorithm excludes dirAll absDir relDir
                _ _ hok
              rw [h2, h1]
              simp only [specIncludedPaths, hm]
              simp

/-- Claim C8: during a snapshot walk of a tracked directory every
entry's path relative to the tracked root is tested against every
exclude pattern; a matching entry is omitted from the snapshot, a
matching directory prunes its entire subtree, and a non-matching entry
is included — the walked snapshot's file paths are exactly the already
recorded ones followed by the spec's included paths
(`specIncludedPaths`, written from the spec's exclusion wording). -/
theorem C8_walk_excludes (algorithm : String) (tp : TrackedPath)
    (entries : List (String × FNode)) (snap snap' : Snapshot)
    (hstat : tp.stat = .node (.dir entries))
    (hok : processPath algorithm tp snap = .ok snap') :
    snap'.files.map (fun f => f.path) =
      snap.files.map (fun f => f.path) ++
        specIncludedPaths tp.excludes (tp.path ++ "/") "" entries := by
  rw [processPath, hstat] at hok
  exact walkEntries_paths (sizeOf entries) entries le_rfl algorithm
    tp.excludes entries (tp.path ++ "/") "" snap snap' hok

theorem C8_walk_excludes_witness :
    (⟨"/D", true, ["*.log"], .node (.dir c8dir)⟩ : TrackedPath).stat =
      StatResult.node (.dir c8dir) ∧
    processPath "sha256" ⟨"/D", true, ["*.log"], .node (.dir c8dir)⟩ c8snap0 =
      .ok c8result ∧
    c8result.files.map (fun f => f.path) =
      c8snap0.files.map (fun f => f.path) ++
        specIncludedPaths ["*.log"] ("/D" ++ "/") "" c8dir ∧
    c8result.files.map (fun f => f.path) = ["/D/x.txt"] := by
  have hev : processPath "sha256"
      ⟨"/D", true, ["*.log"], .node (.dir c8dir)⟩ c8snap0 = .ok c8result := by
    simp only [c8dir, c8snap0, c8result]
    simp [processPath, walkEntries, matchAnyGo, goMatch, goMatchL, classChunk,
      classMatch, getEsc, HashFile, openRead, resolveNode, splitPath,
      splitPathAux, lookupEntry, digestHex, addFile, nodeSize]
    rfl
  exact ⟨rfl, hev,
    C8_walk_excludes "sha256" ⟨"/D", true, ["*.log"], .node (.dir c8dir)⟩
      c8dir c8snap0 c8result rfl hev, rfl⟩

/-- Claim C9: a tracked root that does not exist is skipped silently —
`processPath` returns the snapshot unchanged, so it contributes no file
records and no error — while a tracked root whose stat fails with any
other I/O error makes the whole `CreateSnapshot` return an error (no
snapshot value). -/
theorem C9_missing_skipped_io_aborts :
    (∀ (algorithm : String) (tp : TrackedPath) (snap : Snapshot),
      tp.stat = StatResult.notExist →
      processPath algorithm tp snap = .ok snap) ∧
    (∀ (algorithm : String) (tps : List TrackedPath)
       (user msg : String) (now : Nat) (elapsed : Int),
      (∃ tp ∈ tps, tp.stat = StatResult.ioErr) →
      ∃ e, CreateSnapshot tps user msg algorithm now elapsed = .error e) := by
  constructor
  · intro algorithm tp snap h
    rw [processPath, h]
  · intro algorithm tps user msg now elapsed hex
    have key : ∀ (l : List TrackedPath) (snap : Snapshot),
        (∃ tp ∈ l, tp.stat = StatResult.ioErr) →
        ∃ e, processAll algorithm l snap = .error e := by
      intro l
      induction l with
      | nil =>
        intro snap hx
        simp at hx
      | cons tp0 rest ihr =>
        intro snap hx
        rcases hp : processPath algorithm tp0 snap with e | snap1
        · exact ⟨e, by rw [processAll, hp]⟩
        · rcases hx with ⟨tp, htp, hio⟩
          rcases List.mem_cons.mp htp with heq | hmem
          · subst heq
            rw [processPath, hio] at hp
            exact absurd hp (by simp)
          · obtain ⟨e, he⟩ := ihr snap1 ⟨tp, hmem, hio⟩
            refine ⟨e, ?_⟩
            rw [processAll, hp]
            exact he
    obtain ⟨e, he⟩ := key tps
      ⟨toString now, now, [], user, msg, ⟨0, 0, 0, 0, 0, 0⟩⟩ hex
    refine ⟨e, ?_⟩
    simp only [CreateSnapshot]
    rw [he]

theorem C9_missing_skipped_io_aborts_witness :
    c9tpMiss.stat = StatResult.notExist ∧
    processPath "sha256" c9tpMiss ⟨"0", 0, [], "u", "", ⟨0, 0, 0, 0, 0, 0⟩⟩ =
      .ok ⟨"0", 0, [], "u", "", ⟨0, 0, 0, 0, 0, 0⟩⟩ ∧
    (∃ tp ∈ [c9tpMiss, c9tpBad], tp.stat = StatResult.ioErr) ∧
    ∃ e, CreateSnapshot [c9tpMiss, c9tpBad] "u" "" "sha256" 5 0 = .error e :=
  ⟨rfl,
   C9_missing_skipped_io_aborts.1 "sha256" c9tpMiss
     ⟨"0", 0, [], "u", "", ⟨0, 0, 0, 0, 0, 0⟩⟩ rfl,
   ⟨c9tpBad, by simp, rfl⟩,
   C9_missing_skipped_io_aborts.2 "sha256" [c9tpMiss, c9tpBad] "u" "" 5 0
     ⟨c9tpBad, by simp, rfl⟩⟩

theorem statsInv_addFile (snap : Snapshot) (f : File) (h : StatsInv snap) :
    StatsInv (addFile snap f) := by
  obtain ⟨h1, h2, h3⟩ := h
  refine ⟨?_, ?_, ?_⟩
  · simp [addFile, h1]
  · rcases hsym : f.isSymlink <;> simp [addFile, hsym, h2] <;> omega
  · simp [addFile, h3]

theorem statsInv_excluded (snap : Snapshot) (h : StatsInv snap) :
    StatsInv { snap with stats :=
      { snap.stats with excludedFiles := snap.stats.excludedFiles + 1 } } := by
  obtain ⟨h1, h2, h3⟩ := h
  exact ⟨h1, h2, h3⟩

theorem walkEntries_stats (n : Nat) : ∀ (todo : List (String × FNode)),
    sizeOf todo ≤ n →
    ∀ (algorithm : String) (excludes : List String)
      (dirAll : List (String × FNode)) (absDir relDir : String)
      (snap snap' : Snapshot),
    walkEntries algorithm excludes dirAll absDir relDir todo snap = .ok snap' →
    StatsInv snap → StatsInv snap' := by
  induction n with
  | zero =>
    intro todo hle
    cases todo <;> simp_arith at hle
  | succ n ih =>
    intro todo hle algorithm excludes dirAll absDir relDir snap snap' hok hinv
    cases todo with
    | nil =>
      simp only [walkEntries] at hok
      cases hok
      exact hinv
    | cons e rest =>
      obtain ⟨name, node⟩ := e
      have hrest : sizeOf rest ≤ n := by
        simp only [List.cons.sizeOf_spec, Prod.mk.sizeOf_spec] at hle
        omega
      cases node with
      | ioErr =>
        simp only [walkEntries] at hok
        exact absurd hok (by simp)
      | file c mt =>
        simp only [walkEntries] at hok
        rcases hm : matchAnyGo excludes (relDir ++ name) with e' | b
        · simp only [hm] at hok
          exact absurd hok (by simp)
        · cases b with
          | true =>
            simp only [hm] at hok
            exact ih rest hrest algorithm excludes dirAll absDir relDir _ _
              hok (statsInv_excluded snap hinv)
          | false =>
            simp only [hm] at hok
            rcases hh : HashFile dirAll name algorithm with e' | h <;>
              simp only [hh] at hok
            · exact absurd hok (by simp)
            · exact ih rest hrest algorithm excludes dirAll absDir relDir _ _
                hok (statsInv_addFile snap _ hinv)
      | symlink t mt =>
        simp only [walkEntries] at hok
        rcases hm : matchAnyGo excludes (relDir ++ name) with e' | b
        · simp only [hm] at hok
          exact absurd hok (by simp)
        · cases b with
          | true =>
            simp only [hm] at hok
            exact ih rest hrest algorithm excludes dirAll absDir relDir _ _
              hok (statsInv_excluded snap hinv)
          | false =>
            simp only [hm] at hok
            rcases hh : HashFile dirAll name algorithm with e' | h <;>
              simp only [hh] at hok
            · exact absurd hok (by simp)
            · exact ih rest hrest algorithm excludes dirAll absDir relDir _ _
                hok (statsInv_addFile snap _ hinv)
      | dir entries =>
        have hent : sizeOf entries ≤ n := by
          simp only [List.cons.sizeOf_spec, Prod.mk.sizeOf_spec,
            FNode.dir.sizeOf_spec] at hle
          omega
        simp only [walkEntries] at hok
        rcases hm : matchAnyGo excludes (relDir ++ name) with e' | b
        · simp only [hm] at hok
          exact absurd hok (by simp)
        · cases b with
          | true =>
            simp only [hm] at hok
            exact ih rest hrest algorithm excludes dirAll absDir relDir _ _
              hok (statsInv_excluded snap hinv)
          | false =>
            simp only [hm] at hok
            rcases hw : walkEntries algorithm excludes entries
                (absDir ++ name ++ "/") (relDir ++ name ++ "/") entries snap
                with e' | snap1 <;> simp only [hw] at hok
            · exact absurd hok (by simp)
            · exact ih rest hrest algorithm excludes dirAll absDir relDir _ _
                hok (ih entries hent algorithm excludes entries
                  (absDir ++ name ++ "/") (relDir ++ name ++ "/") _ _ hw hinv)

theorem processPath_stats (algorithm : String) (tp : TrackedPath)
    (snap snap' : Snapshot)
    (hok : processPath algorithm tp snap = .ok snap')
    (hinv : StatsInv snap) : StatsInv snap' := by
  rw [processPath] at hok
  rcases hstat : tp.stat with _ | _ | node <;> rw [hstat] at hok
  · cases hok
    exact hinv
  · exact absurd hok (by simp)
  · cases node with
    | file c mt =>
      dsimp only at hok
      rcases hd : digestHex algorithm c with e | h <;> rw [hd] at hok
      · exact absurd hok (by simp)
      · simp only [Except.ok.injEq] at hok
        rw [← hok]
        exact statsInv_addFile snap _ hinv
    | symlink t mt => exact absurd hok (by simp)
    | dir entries =>
      exact walkEntries_stats (sizeOf entries) entries le_rfl algorithm
        tp.excludes entries (tp.path ++ "/") "" snap snap' hok hinv
    | ioErr => exact absurd hok (by simp)

theorem processAll_stats (algorithm : String) : ∀ (tps : List TrackedPath)
    (snap snap' : Snapshot),
    processAll algorithm tps snap = .ok snap' →
    StatsInv snap → StatsInv snap' := by
  intro tps
  induction tps with
  | nil =>
    intro snap snap' hok hinv
    simp only [processAll] at hok
    cases hok
    exact hinv
  | cons tp rest ih =>
    intro snap snap' hok hinv
    rw [processAll] at hok
    rcases hp : processPath algorithm tp snap with e | snap1 <;>
      rw [hp] at hok
    · exact absurd hok (by simp)
    · exact ih snap1 snap' hok (processPath_stats algorithm tp snap snap1
        hp hinv)

/-- Claim C10: every snapshot returned successfully by `CreateSnapshot`
has statistics consistent with its file list: `total_files` equals the
number of file records and equals `regular_files + symlink_count`, and
`total_size` equals the sum of the records' sizes. -/
theorem C10_stats_consistent (trackedPaths : List TrackedPath)
    (user msg algorithm : String) (now : Nat) (elapsed : Int)
    (snap : Snapshot)
    (hok : CreateSnapshot trackedPaths user msg algorithm now elapsed =
      .ok snap) :
    snap.stats.totalFiles = snap.files.length ∧
    snap.stats.totalFiles = snap.stats.regularFiles + snap.stats.symlinkCount ∧
    snap.stats.totalSize = (snap.files.map (fun f => f.size)).sum := by
  simp only [CreateSnapshot] at hok
  rcases hp : processAll algorithm trackedPaths
      ⟨toString now, now, [], user, msg, ⟨0, 0, 0, 0, 0, 0⟩⟩ with e | snap0 <;>
    rw [hp] at hok
  · exact absurd hok (by simp)
  · have h0 : StatsInv
        (⟨toString now, now, [], user, msg, ⟨0, 0, 0, 0, 0, 0⟩⟩ : Snapshot) :=
      ⟨rfl, rfl, rfl⟩
    have hs := processAll_stats algorithm trackedPaths _ snap0 hp h0
    simp only [Except.ok.injEq] at hok
    obtain ⟨h1, h2, h3⟩ := hs
    rw [← hok]
    exact ⟨h1, h2, h3⟩

theorem C10_stats_consistent_witness :
    CreateSnapshot [⟨"/D/f", false, [], .node (.file [1, 2] 3)⟩]
      "u" "" "sha256" 5 7 = .ok c10snap ∧
    (c10snap.stats.totalFiles = c10snap.files.length ∧
     c10snap.stats.totalFiles =
       c10snap.stats.regularFiles + c10snap.stats.symlinkCount ∧
     c10snap.stats.totalSize = (c10snap.files.map (fun f => f.size)).sum) :=
  ⟨by rfl,
   C10_stats_consistent [⟨"/D/f", false, [], .node (.file [1, 2] 3)⟩]
     "u" "" "sha256" 5 7 c10snap (by rfl)⟩

end DSP
